import Mathlib

/-!
# sims: registry, entities and world step

A shallow embedding of `list/linked_list.go` and `main.go`.

* Fallible code returns `Option`: `none` is a Go panic (nil dereference, failed type
  assertion, `rand.Intn` with a non-positive bound, the `invalid direction` panic of `Move`,
  an index out of range).
* Pointers are addresses into an explicit store; `none` is the nil pointer.
* Closures with side effects (`func(T) bool`) are state passing functions over a state `σ`.
-/

namespace Sims

/-! ## container/list (Go standard library), the part used by `list.LinkedList` -/

/-- The struct `container/list.Element`.  `next` and `prev` are pointers to elements, `list`
tells whether the field `e.list` points to the owning list (`false` is nil), `Value` is the
stored `any` (`none` is the nil interface of the sentinel). -/
structure Element (T : Type) where
  next : Option Nat
  prev : Option Nat
  list : Bool
  Value : Option T

/-- The struct `container/list.List` together with the elements allocated for it: address `0` is
the sentinel `&l.root`, every other address is an element created by `insertValue`. -/
structure ContainerList (T : Type) where
  mem : List (Element T)
  len : Int

namespace ContainerList

variable {T : Type}

/-- Dereference of an element pointer; `none` when the address is not allocated. -/
def load (l : ContainerList T) (p : Nat) : Option (Element T) := l.mem[p]?

/-- Write through an element pointer. -/
def store (l : ContainerList T) (p : Nat) (e : Element T) : ContainerList T :=
  { l with mem := l.mem.set p e }

/-- Go `func (l *List) Init() *List`: `l.root.next = &l.root; l.root.prev = &l.root; l.len = 0`. -/
def Init (l : ContainerList T) : Option (ContainerList T) := do
  let r ← l.load 0
  let l := l.store 0 { r with next := some 0 }
  let r ← l.load 0
  let l := l.store 0 { r with prev := some 0 }
  pure { l with len := 0 }

/-- Go `list.New()`: `new(List).Init()`. -/
def New : ContainerList T :=
  { mem := [{ next := some 0, prev := some 0, list := false, Value := none }], len := 0 }

/-- Go `func (l *List) Len() int`. -/
def Len (l : ContainerList T) : Int := l.len

/-- Go `func (l *List) Front() *Element`: nil when `l.len == 0`, else `l.root.next`. -/
def Front (l : ContainerList T) : Option (Option Nat) :=
  if l.len = 0 then some none
  else do
    let r ← l.load 0
    pure r.next

/-- Go `func (e *Element) Next() *Element`:
`if p := e.next; e.list != nil && p != &e.list.root { return p }; return nil`. -/
def Next (l : ContainerList T) (e : Nat) : Option (Option Nat) := do
  let el ← l.load e
  if el.list && el.next != some 0 then pure el.next else pure none

/-- Go `func (l *List) lazyInit()`: `if l.root.next == nil { l.Init() }`. -/
def lazyInit (l : ContainerList T) : Option (ContainerList T) := do
  let r ← l.load 0
  if r.next = none then l.Init else pure l

/-- Go `func (l *List) insert(e, at *Element) *Element`, with the allocation
`&Element{Value: v}` of `insertValue` done first: the new element gets the next free address.
`e.prev = at; e.next = at.next; e.prev.next = e; e.next.prev = e; e.list = l; l.len++`. -/
def insertValue (l : ContainerList T) (v : T) (at_ : Nat) : Option (ContainerList T × Nat) := do
  let e := l.mem.length
  let l : ContainerList T :=
    { l with mem := l.mem ++ [{ next := none, prev := none, list := false, Value := some v }] }
  let el ← l.load e
  let l := l.store e { el with prev := some at_ }
  let a ← l.load at_
  let el ← l.load e
  let l := l.store e { el with next := a.next }
  let el ← l.load e
  let p ← el.prev
  let pe ← l.load p
  let l := l.store p { pe with next := some e }
  let el ← l.load e
  let n ← el.next
  let ne ← l.load n
  let l := l.store n { ne with prev := some e }
  let el ← l.load e
  let l := l.store e { el with list := true }
  pure ({ l with len := l.len + 1 }, e)

/-- Go `func (l *List) PushBack(v any) *Element`: `l.lazyInit(); return l.insertValue(v, l.root.prev)`. -/
def PushBack (l : ContainerList T) (v : T) : Option (ContainerList T × Nat) := do
  let l ← l.lazyInit
  let r ← l.load 0
  let at_ ← r.prev
  l.insertValue v at_

/-- Go `func (l *List) remove(e *Element)`:
`e.prev.next = e.next; e.next.prev = e.prev; e.next = nil; e.prev = nil; e.list = nil; l.len--`. -/
def remove (l : ContainerList T) (e : Nat) : Option (ContainerList T) := do
  let el ← l.load e
  let p ← el.prev
  let pe ← l.load p
  let l := l.store p { pe with next := el.next }
  let el ← l.load e
  let n ← el.next
  let ne ← l.load n
  let l := l.store n { ne with prev := el.prev }
  let el ← l.load e
  let l := l.store e { el with next := none }
  let el ← l.load e
  let l := l.store e { el with prev := none }
  let el ← l.load e
  let l := l.store e { el with list := false }
  pure { l with len := l.len - 1 }

/-- Go `func (l *List) Remove(e *Element) any`: `if e.list == l { l.remove(e) }; return e.Value`
(the returned value is dropped by the caller). -/
def Remove (l : ContainerList T) (e : Nat) : Option (ContainerList T) := do
  let el ← l.load e
  if el.list then l.remove e else pure l

/-- The field `next` read through the pointer `p`. -/
def nextAt (l : ContainerList T) (p : Nat) : Option Nat := (l.load p).bind (fun e => e.next)

/-- The field `prev` read through the pointer `p`. -/
def prevAt (l : ContainerList T) (p : Nat) : Option Nat := (l.load p).bind (fun e => e.prev)

/-- The value of the element at `p` when that element belongs to the list. -/
def valueAt (l : ContainerList T) (p : Nat) : Option T :=
  (l.load p).bind (fun e => if e.list then e.Value else none)

/-- The elements `a` and `b` are neighbours: `a.next == b` and `b.prev == a`. -/
def Link (l : ContainerList T) (a b : Nat) : Prop := l.nextAt a = some b ∧ l.prevAt b = some a

/-- Starting after the element `a`, the elements at the addresses of `ns` follow each other,
carry the values of `ns`, and the last one is linked to the element `z`. -/
def Chain (l : ContainerList T) : Nat → List (Nat × T) → Nat → Prop
  | a, [], z => l.Link a z
  | a, n :: ns, z => l.Link a n.1 ∧ l.valueAt n.1 = some n.2 ∧ Chain l n.1 ns z

/-- The address of the last element of the chain `ns` that starts after `a` (`a` itself when
`ns` is empty). -/
def lastAddr : Nat → List (Nat × T) → Nat
  | a, [] => a
  | _, n :: ns => lastAddr n.1 ns

/-- The address of the first element of the chain `ns` that ends at `z` (`z` itself when `ns`
is empty). -/
def firstAddr : List (Nat × T) → Nat → Nat
  | [], z => z
  | n :: _, _ => n.1

/-- The cursor of a walk that has the elements `ns` still to visit: nil when there is none. -/
def cursorOf : List (Nat × T) → Option Nat
  | [] => none
  | n :: _ => some n.1

/-- The invariant of `container/list.List`: the sentinel and the elements `ns` (address and
value) form a ring, the addresses are distinct, and `len` counts the elements. -/
structure Ring (l : ContainerList T) (ns : List (Nat × T)) : Prop where
  chain : l.Chain 0 ns 0
  nodup : (0 :: ns.map Prod.fst).Nodup
  len : l.len = ns.length

end ContainerList

/-! ## list/linked_list.go -/

/-- Go `type LinkedList[T any] struct { l *list.List }`. -/
structure LinkedList (T : Type) where
  l : ContainerList T

namespace LinkedList

variable {T σ : Type}

/-- Go `func NewLinkedList[T any]() *LinkedList[T]`. -/
def NewLinkedList : LinkedList T := { l := ContainerList.New }

/-- Go `func (r *LinkedList[T]) Len() int`. -/
def Len (r : LinkedList T) : Int := r.l.Len

/-- The loop `for e := ...; e != nil; e = e.Next() { if iterator(e.Value.(T)) { r.l.Remove(e) } }`
of `IterateRemove`, started at the cursor `e`.  `fuel` bounds the number of iterations. -/
def iterateRemoveLoop (iterator : T → σ → Option (Bool × σ)) :
    Nat → Option Nat → ContainerList T → σ → Option (ContainerList T × σ)
  | 0, _, _, _ => none
  | _ + 1, none, l, s => some (l, s)
  | fuel + 1, some e, l, s => do
    let el ← l.load e
    let v ← el.Value
    let (b, s) ← iterator v s
    let l ← if b then l.Remove e else pure l
    let e ← l.Next e
    iterateRemoveLoop iterator fuel e l s

/-- Go `func (r *LinkedList[T]) IterateRemove(iterator func(T) bool)`.  The iterator is a closure
over a state `σ`.  A walk visits an allocated element at most once, so the number of allocated
elements plus one bounds the iterations. -/
def IterateRemove (r : LinkedList T) (iterator : T → σ → Option (Bool × σ)) (s : σ) :
    Option (LinkedList T × σ) := do
  let e ← r.l.Front
  let (l, s) ← iterateRemoveLoop iterator (r.l.mem.length + 1) e r.l s
  pure ({ l := l }, s)

/-- The loop `for e := ...; e != nil; e = e.Next() { iterator(e.Value.(T)) }` of `Iterate`. -/
def iterateLoop (iterator : T → σ → Option σ) :
    Nat → Option Nat → ContainerList T → σ → Option σ
  | 0, _, _, _ => none
  | _ + 1, none, _, s => some s
  | fuel + 1, some e, l, s => do
    let el ← l.load e
    let v ← el.Value
    let s ← iterator v s
    let e ← l.Next e
    iterateLoop iterator fuel e l s

/-- Go `func (r *LinkedList[T]) Iterate(iterator func(T))`. -/
def Iterate (r : LinkedList T) (iterator : T → σ → Option σ) (s : σ) : Option σ := do
  let e ← r.l.Front
  iterateLoop iterator (r.l.mem.length + 1) e r.l s

/-- Go `func (r *LinkedList[T]) PushBack(v T)`. -/
def PushBack (r : LinkedList T) (v : T) : Option (LinkedList T) := do
  let (l, _) ← r.l.PushBack v
  pure { l := l }

/-- The list built by `NewLinkedList` followed by `PushBack` of each value in turn. -/
def ofList : List T → Option (LinkedList T)
  | xs => xs.foldlM (fun r v => r.PushBack v) NewLinkedList

/-- The values an `Iterate` visits, in order: the contents of the list. -/
def toList (r : LinkedList T) : Option (List T) :=
  r.Iterate (fun v acc => some (acc ++ [v])) []

/-- A predicate `p` used as an `IterateRemove` iterator that records each call in a log. -/
def logged (p : T → Bool) : T → List T → Option (Bool × List T) :=
  fun v log => some (p v, log ++ [v])

/-- The list is well formed and its contents are the values `xs`, in order. -/
def Represents (r : LinkedList T) (xs : List T) : Prop :=
  ∃ ns, r.l.Ring ns ∧ ns.map Prod.snd = xs

/-- What the loop of `IterateRemove` does to the contents `xs` of a well formed list: the
iterator is run on the elements in order up to the first one for which it returns true; that
element is dropped and the walk ends there, the elements after it are kept and not visited. -/
def cullFirst (iterator : T → σ → Option (Bool × σ)) : List T → σ → Option (List T × σ)
  | [], s => some ([], s)
  | x :: xs, s =>
    match iterator x s with
    | none => none
    | some (true, s) => some (xs, s)
    | some (false, s) =>
      match cullFirst iterator xs s with
      | none => none
      | some (ys, s) => some (x :: ys, s)

/-- What the loop of `Iterate` does on the contents `xs`: the iterator is run on each element in
order. -/
def visitAll (iterator : T → σ → Option σ) : List T → σ → Option σ
  | [], s => some s
  | x :: xs, s =>
    match iterator x s with
    | none => none
    | some s => visitAll iterator xs s

end LinkedList

/-! ## float64 -/

/-- An IEEE 754 binary64 value.  Every finite binary64 number is an integer multiple of
`2^(-1074)`; `fin k` is the number `k * 2^(-1074)`.  The two zeros are both `fin 0` (the program
never divides and never prints a float, so the sign of zero is not observable). -/
inductive Float64 where
  | fin (k : Int)
  | inf (neg : Bool)
  | nan
  deriving DecidableEq, Repr

namespace Float64

/-- The scale: `fin unit` is `1.0`. -/
def unit : Nat := 2 ^ 1074

/-- The position of the highest set bit of `n` (`0` for `n = 0`), for `n < 2^4096`, found by
binary search on the shift. -/
def log2 (n : Nat) : Nat :=
  ([2048, 1024, 512, 256, 128, 64, 32, 16, 8, 4, 2, 1].foldl
    (fun (acc : Nat × Nat) k => if 2 ^ k ≤ acc.1 then (acc.1 >>> k, acc.2 + k) else acc) (n, 0)).2

/-- Rounding of a magnitude `n < 2^4096` to 53 significant bits, to nearest, ties to even. -/
def roundNat (n : Nat) : Nat :=
  if n < 2 ^ 53 then n
  else
    let s := log2 n - 52
    let q := n >>> s
    let r := n % 2 ^ s
    let half := 2 ^ (s - 1)
    let q := if r > half ∨ (r = half ∧ q % 2 = 1) then q + 1 else q
    q <<< s

/-- The binary64 result of an exact value `k * 2^(-1074)`: round to nearest even; a result of
magnitude `2^1024` or more overflows to the infinity of the same sign. -/
def ofScaled (k : Int) : Float64 :=
  if 2 ^ 2099 ≤ k.natAbs then inf (decide (k < 0))
  else
    let m := roundNat k.natAbs
    if 2 ^ 2098 ≤ m then inf (decide (k < 0))
    else fin (if k < 0 then -(m : Int) else (m : Int))

/-- A number `m * 2^e` written with a mantissa and a binary exponent (`e ≥ -1074`). -/
def ofMantExp (m : Int) (e : Int) : Float64 := ofScaled (m * (2 ^ (e + 1074).toNat : Nat))

/-- Go conversion `float64(i)` of an `int`. -/
def ofInt (i : Int) : Float64 := ofScaled (i * unit)

/-- Unary minus. -/
def neg : Float64 → Float64
  | fin k => fin (-k)
  | inf b => inf (!b)
  | nan => nan

/-- Go `a + b` on float64. -/
def add : Float64 → Float64 → Float64
  | nan, _ => nan
  | _, nan => nan
  | inf a, inf b => if a = b then inf a else nan
  | inf a, fin _ => inf a
  | fin _, inf b => inf b
  | fin a, fin b => ofScaled (a + b)

/-- Go `a - b` on float64. -/
def sub (a b : Float64) : Float64 := add a (neg b)

/-- Go `math.Round`: nearest integer, halfway cases away from zero; infinities and NaN are
returned unchanged. -/
def Round : Float64 → Float64
  | fin k =>
    let n := (k.natAbs + unit / 2) / unit * unit
    fin (if k < 0 then -(n : Int) else (n : Int))
  | x => x

/-- Go conversion `int(f)`: the fraction is discarded (truncation towards zero).  When the value
does not fit in a 64-bit `int` (or is an infinity or NaN) the Go specification leaves the result
to the implementation; the value taken here is the one of amd64, the smallest `int`. -/
def toInt : Float64 → Int
  | fin k =>
    let n : Int := (k.natAbs / unit : Nat)
    let t := if k < 0 then -n else n
    if -((2 ^ 63 : Nat) : Int) ≤ t ∧ t < ((2 ^ 63 : Nat) : Int) then t else -((2 ^ 63 : Nat) : Int)
  | _ => -((2 ^ 63 : Nat) : Int)

end Float64

/-! ## main.go: entities -/

/-- Go `type Direction uint`. -/
abbrev Direction := Nat

/-- Go `North Direction = iota`. -/
def North : Direction := 0
/-- Go constant `East`. -/
def East : Direction := 1
/-- Go constant `South`. -/
def South : Direction := 2
/-- Go constant `West`. -/
def West : Direction := 3

/-- Go `type Coordinates struct{ x, y int }`. -/
structure Coordinates where
  x : Int
  y : Int
  deriving DecidableEq, Repr

/-- Go `type PreciseCoordinates struct{ x, y float64 }`. -/
structure PreciseCoordinates where
  x : Float64
  y : Float64
  deriving DecidableEq, Repr

/-- Go `func (r PreciseCoordinates) Move(direction Direction, distance float64)`; `none` is
`panic("invalid direction")`. -/
def PreciseCoordinates.Move (r : PreciseCoordinates) (direction : Direction)
    (distance : Float64) : Option PreciseCoordinates :=
  if direction = North then some { r with y := r.y.sub distance }
  else if direction = East then some { r with x := r.x.add distance }
  else if direction = South then some { r with y := r.y.add distance }
  else if direction = West then some { r with x := r.x.sub distance }
  else none

/-- Go `SlugSpeed float64 = 0.12`: the binary64 number nearest to 0.12, which is
`0x1.eb851eb851eb8p-4 = 8646911284551352 * 2^(-56)`. -/
def SlugSpeed : Float64 := Float64.ofMantExp 8646911284551352 (-56)

/-- Go `SlugAgeThreshold uint64 = 256`. -/
def SlugAgeThreshold : Nat := 256

/-- Go `SlugRender = 'S'`. -/
def SlugRender : Char := 'S'

/-- Go `SlugSpawnChance = 32`. -/
def SlugSpawnChance : Int := 32

/-- Go `type Slug struct`; `age` is a `uint64`. -/
structure Slug where
  age : Nat
  position : PreciseCoordinates
  movementDirection : Direction
  deriving DecidableEq, Repr

namespace Slug

/-- Go `func (r *Slug) Beat() bool`: the Slug after the call and the returned flag; `none` when
`Move` panics. -/
def Beat (r : Slug) : Option (Slug × Bool) :=
  let r := { r with age := (r.age + 1) % 2 ^ 64 }
  if r.age > SlugAgeThreshold then some (r, false)
  else do
    let p ← r.position.Move r.movementDirection SlugSpeed
    some ({ r with position := p }, true)

/-- Go `func (r *Slug) Render() rune`. -/
def Render (_r : Slug) : Char := SlugRender

/-- Go `func (r *Slug) Position() Coordinates`. -/
def Position (r : Slug) : Coordinates :=
  { x := r.position.x.Round.toInt, y := r.position.y.Round.toInt }

/-- The Slug after `n` calls of `Beat`, when none of them panics. -/
def beats : Nat → Slug → Option Slug
  | 0, s => some s
  | n + 1, s => do
    let (s, _) ← s.Beat
    beats n s

/-- Whether each of the next `n` calls of `Beat` returns true and leaves the discrete position
with `x < w` and `y < h`. -/
def staysBelow (w h : Int) : Nat → Slug → Bool
  | 0, _ => true
  | n + 1, s =>
    match s.Beat with
    | some (s, true) => decide (s.Position.x < w ∧ s.Position.y < h) && staysBelow w h n s
    | _ => false

end Slug

/-- The Slug of the example scenario: fresh, at position (5.0, 5.0), heading North. -/
def exampleSlug : Slug := ⟨0, ⟨.ofInt 5, .ofInt 5⟩, North⟩

/-- The Slug of the example scenario after one beat, as `Move` computes it. -/
def exampleSlugMoved : Slug := ⟨1, ⟨.ofInt 5, (Float64.ofInt 5).sub SlugSpeed⟩, North⟩

/-! ## main.go: the world -/

/-- The generator `*rand.Rand` held by the world, given by the stream of values its future draws
are taken from.  Every sequence of results that `Intn` may return is produced by some stream. -/
structure Rand where
  draws : Nat → Nat

/-- Go `func (r *Rand) Intn(n int) int`: panics when `n <= 0`, else a value in `[0, n)`; the
generator advances. -/
def Rand.Intn (r : Rand) (n : Int) : Option (Int × Rand) :=
  if n ≤ 0 then none
  else some (((r.draws 0 % n.toNat : Nat) : Int), { draws := fun i => r.draws (i + 1) })

/-- The generator whose draws are taken from the values of `l` in order, and from `d` once
`l` is used up. -/
def Rand.ofList (l : List Nat) (d : Nat) : Rand := { draws := fun i => l.getD i d }

/-- Go `type Config struct`: the seed and the time between two beats (nanoseconds). -/
structure Config where
  seed : Int
  speed : Int
  deriving DecidableEq, Repr

/-- Go `type Entity interface`: the only implementation is `*Slug`, so an entity is a pointer to
a Slug, an address into the store of Slugs. -/
abbrev Entity := Nat

namespace Entity

/-- Method call `e.Beat()` through the pointer: the Slug is updated in the store; `none` when
the pointer is not valid or `Slug.Beat` panics. -/
def Beat (e : Entity) (slugs : List Slug) : Option (Bool × List Slug) := do
  let s ← slugs[e]?
  let (s, ok) ← s.Beat
  pure (ok, slugs.set e s)

/-- Method call `e.Position()` through the pointer. -/
def Position (e : Entity) (slugs : List Slug) : Option Coordinates := do
  let s ← slugs[e]?
  pure s.Position

/-- Method call `e.Render()` through the pointer. -/
def Render (e : Entity) (slugs : List Slug) : Option Char := do
  let s ← slugs[e]?
  pure s.Render

end Entity

/-- Go `type World struct`.  `slugs` is the store of the Slug objects that the entity pointers
of the registry refer to; `&Slug{...}` allocates at the next free address. -/
structure World where
  config : Config
  noise : Rand
  age : Nat
  entities : LinkedList Entity
  w : Int
  h : Int
  render : Bool
  slugs : List Slug

namespace World

/-- The world built in `main`: no entity, bounds zero, not yet rendering. -/
def initial (c : Config) (noise : Rand) : World :=
  { config := c, noise := noise, age := 0, entities := LinkedList.NewLinkedList,
    w := 0, h := 0, render := false, slugs := [] }

/-- Go `func (r *World) Resize(w, h int)`. -/
def Resize (r : World) (w h : Int) : World :=
  { r with w := w, h := h, render := true }

/-- The closure passed to `IterateRemove` in `World.Beat`, for bounds `w`, `h`:
`if !e.Beat() { return true }; p := e.Position(); if p.x >= r.w || p.y >= r.h { return true };
return false`. -/
def cullIterator (w h : Int) (e : Entity) (slugs : List Slug) : Option (Bool × List Slug) := do
  let (ok, slugs) ← e.Beat slugs
  if !ok then pure (true, slugs)
  else do
    let p ← e.Position slugs
    if p.x ≥ w || p.y ≥ h then pure (true, slugs) else pure (false, slugs)

/-- The first statement of `World.Beat` after `r.age++`: the call
`r.entities.IterateRemove(func(e Entity) bool {...})`. -/
def cull (r : World) : Option World := do
  let (entities, slugs) ← r.entities.IterateRemove (cullIterator r.w r.h) r.slugs
  pure { r with entities := entities, slugs := slugs }

/-- The second statement of `World.Beat`: `if r.noise.Intn(SlugSpawnChance) == 0 {
r.entities.PushBack(&Slug{position: PreciseCoordinates{x: float64(r.noise.Intn(r.w)),
y: float64(r.noise.Intn(r.h))}, movementDirection: Direction(r.noise.Intn(4))}) }`. -/
def spawn (r : World) : Option World := do
  let (c, noise) ← r.noise.Intn SlugSpawnChance
  let r : World := { r with noise := noise }
  if c = 0 then do
    let (i, noise) ← r.noise.Intn r.w
    let r : World := { r with noise := noise }
    let (j, noise) ← r.noise.Intn r.h
    let r : World := { r with noise := noise }
    let (d, noise) ← r.noise.Intn 4
    let r : World := { r with noise := noise }
    let e : Entity := r.slugs.length
    let r : World := { r with slugs := r.slugs ++
      [{ age := 0, position := { x := Float64.ofInt i, y := Float64.ofInt j },
         movementDirection := d.toNat }] }
    let entities ← r.entities.PushBack e
    pure { r with entities := entities }
  else pure r

/-- Go `func (r *World) Beat()`: `r.age++`, then the culling traversal, then the spawn. -/
def Beat (r : World) : Option World := do
  let r : World := { r with age := (r.age + 1) % 2 ^ 64 }
  let r ← r.cull
  r.spawn

/-- Go `RenderEmpty = ' '`. -/
def RenderEmpty : Char := ' '

/-- Go `RenderNewline = '\n'`. -/
def RenderNewline : Char := '\n'

/-- Go `strings.TrimSuffix(s, "\n")` on the runes of `s`. -/
def trimNewline (s : List Char) : List Char :=
  if s.getLast? = some '\n' then s.dropLast else s

/-- The closure passed to `Iterate` in `World.View`: `p := e.Position();
canvas[p.y][p.x] = e.Render()`; `none` is an index out of range. -/
def paint (slugs : List Slug) (e : Entity) (canvas : List (List Char)) :
    Option (List (List Char)) := do
  let p ← e.Position slugs
  let c ← e.Render slugs
  if p.y < 0 then none
  else do
    let row ← canvas[p.y.toNat]?
    if p.x < 0 ∨ (row.length : Int) ≤ p.x then none
    else pure (canvas.set p.y.toNat (row.set p.x.toNat c))

/-- Go `func (r *World) View() string`; `none` is a panic (`make` with a negative capacity or an
index out of range). -/
def View (r : World) : Option String :=
  if !r.render then some "not initialized"
  else if r.h < 0 ∨ (0 < r.h ∧ r.w < 0) then none
  else do
    let canvas := List.replicate r.h.toNat (List.replicate r.w.toNat RenderEmpty)
    let canvas ← r.entities.Iterate (paint r.slugs) canvas
    let s := canvas.foldl (fun s row => row.foldl (fun s cell => s ++ [cell]) s ++ [RenderNewline]) []
    pure (String.mk (trimNewline s))

/-- The grid that the specification describes for a world of `w` columns and `h` rows whose
registry holds the Slugs `ss`: the cell at row `y`, column `x` is the render symbol of a Slug
when some Slug has the discrete position `(x, y)`, and the empty symbol otherwise. -/
def specGrid (w h : Nat) (ss : List Slug) : List (List Char) :=
  (List.range h).map (fun (y : Nat) => (List.range w).map (fun (x : Nat) =>
    if ∃ s ∈ ss, s.Position = { x := (x : Int), y := (y : Int) } then SlugRender else RenderEmpty))

/-- The symbol at row `y`, column `x` of a canvas, when there is such a cell. -/
def cellAt (cv : List (List Char)) (x y : Nat) : Option Char :=
  (cv[y]?).bind (fun row => row[x]?)

/-- A canvas of exactly `h` rows of exactly `w` symbols. -/
def IsGrid (cv : List (List Char)) (w h : Nat) : Prop :=
  cv.length = h ∧ ∀ row ∈ cv, row.length = w

/-- The inbound messages of bubbletea that `Update` tells apart. -/
inductive Msg where
  | WindowSizeMsg (Width Height : Int)
  | KeyMsg (key : String)
  | TickMsg
  | other
  deriving DecidableEq, Repr

/-- The commands `Update` returns: nil, `tea.Quit`, or the next tick after the given delay. -/
inductive Cmd where
  | nil
  | Quit
  | Tick (speed : Int)
  deriving DecidableEq, Repr

/-- Go `func (r *World) TickCmd() tea.Cmd`. -/
def TickCmd (r : World) : Cmd := Cmd.Tick r.config.speed

/-- Go `func (r *World) Init() tea.Cmd`. -/
def Init (r : World) : Cmd := r.TickCmd

/-- Go `func (r *World) Update(raw tea.Msg) (tea.Model, tea.Cmd)`; the log lines are not
modelled. -/
def Update (r : World) (raw : Msg) : Option (World × Cmd) :=
  match raw with
  | Msg.WindowSizeMsg w h => some (r.Resize w h, Cmd.nil)
  | Msg.KeyMsg key => if key = "ctrl+c" then some (r, Cmd.Quit) else some (r, Cmd.nil)
  | Msg.TickMsg => do
    let r ← r.Beat
    pure (r, r.TickCmd)
  | Msg.other => some (r, Cmd.nil)

/-- The Slugs that the pointers `es` refer to, in order; `none` when a pointer is not valid. -/
def derefAll (slugs : List Slug) : List Entity → Option (List Slug)
  | [] => some []
  | e :: es =>
    match slugs[e]?, derefAll slugs es with
    | some s, some ss => some (s :: ss)
    | _, _ => none

/-- The Slugs of the registry in registry order, read through the entity pointers. -/
def registry (r : World) : Option (List Slug) := do
  let es ← r.entities.toList
  derefAll r.slugs es

/-- A well formed world: the registry is a well formed list, and each of its entities points
to a Slug whose direction is one of the four declared constants. -/
def Valid (r : World) : Prop :=
  ∃ es, r.entities.Represents es ∧
    ∀ e ∈ es, ∃ s, r.slugs[e]? = some s ∧ s.movementDirection ≤ West

/-- The calls `Resize` and `Beat` that drive a world. -/
inductive Call where
  | resize (w h : Int)
  | beat

/-- One call applied to a world. -/
def call (r : World) : Call → Option World
  | Call.resize w h => some (r.Resize w h)
  | Call.beat => r.Beat

/-- A sequence of calls applied in order; `none` as soon as one panics. -/
def run (r : World) : List Call → Option World
  | [] => some r
  | c :: cs => (r.call c).bind (fun r => run r cs)

/-- A world with bounds 10 by 10 whose registry holds exactly the Slug of the example
scenario: the list has the sentinel at address 0 and one element at address 1, whose value is
the pointer 0 to the Slug. -/
def loneSlugWorld : World :=
  { config := ⟨0, 100⟩, noise := Rand.ofList [] 0, age := 0,
    entities := { l := { mem := [⟨some 1, some 1, false, none⟩, ⟨some 0, some 0, true, some 0⟩],
                         len := 1 } },
    w := 10, h := 10, render := true, slugs := [exampleSlug] }

/-- The world of `main` after `Resize(10, 10)`, with a generator whose first beat draws 0 (spawn),
5 (x), 0 (y), 0 (North) and whose later beats draw 1 (no spawn). -/
def topRowWorld : World := (initial ⟨0, 100⟩ (Rand.ofList [0, 5, 0, 0] 1)).Resize 10 10

/-- The world `topRowWorld` after `r.age++` and the culling traversal of its first beat. -/
def topRowWorldCulled : World := { topRowWorld with age := 1 }

/-- The world of `main` after `Resize(100, 10)`, with a generator whose first two beats each
spawn a Slug at (5, 5) heading East and whose later beats do not spawn. -/
def twoSlugWorld : World :=
  (initial ⟨0, 100⟩ (Rand.ofList [0, 5, 5, 1, 0, 5, 5, 1] 1)).Resize 100 10

end World

/-! ## Lemmas: container/list -/

namespace ContainerList
variable {T : Type}

theorem load_store (l : ContainerList T) (p q : Nat) (e : Element T) :
    (l.store p e).load q = if p = q then (if p < l.mem.length then some e else none) else l.load q := by
  simp [load, store, List.getElem?_set]

theorem load_lt {l : ContainerList T} {p : Nat} {e : Element T} (h : l.load p = some e) :
    p < l.mem.length := by
  unfold load at h
  exact (List.getElem?_eq_some_iff.1 h).1

theorem store_length (l : ContainerList T) (p : Nat) (e : Element T) :
    (l.store p e).mem.length = l.mem.length := by
  simp [store]

theorem store_len (l : ContainerList T) (p : Nat) (e : Element T) :
    (l.store p e).len = l.len := rfl

theorem load_mk (m : List (Element T)) (k : Int) (q : Nat) :
    (ContainerList.mk m k).load q = (ContainerList.mk m 0).load q := rfl

theorem nextAt_store (l : ContainerList T) (p q : Nat) (e : Element T) :
    (l.store p e).nextAt q = if p = q then (if p < l.mem.length then e.next else none) else l.nextAt q := by
  simp only [nextAt, load_store]; split_ifs <;> rfl

theorem prevAt_store (l : ContainerList T) (p q : Nat) (e : Element T) :
    (l.store p e).prevAt q = if p = q then (if p < l.mem.length then e.prev else none) else l.prevAt q := by
  simp only [prevAt, load_store]; split_ifs <;> rfl

theorem valueAt_store (l : ContainerList T) (p q : Nat) (e : Element T) :
    (l.store p e).valueAt q = if p = q then (if p < l.mem.length then (if e.list then e.Value else none) else none)
      else l.valueAt q := by
  simp only [valueAt, load_store]; split_ifs <;> simp_all

theorem nextAt_len (l : ContainerList T) (k : Int) (q : Nat) :
    ({ l with len := k } : ContainerList T).nextAt q = l.nextAt q := rfl
theorem prevAt_len (l : ContainerList T) (k : Int) (q : Nat) :
    ({ l with len := k } : ContainerList T).prevAt q = l.prevAt q := rfl
theorem valueAt_len (l : ContainerList T) (k : Int) (q : Nat) :
    ({ l with len := k } : ContainerList T).valueAt q = l.valueAt q := rfl

theorem remove_spec (l : ContainerList T) (e a n : Nat) (el pe ne : Element T)
    (hea : e ≠ a) (hen : e ≠ n)
    (h1 : l.load e = some el) (h2 : el.prev = some a) (h3 : el.next = some n)
    (h4 : l.load a = some pe) (h5 : l.load n = some ne) :
    ∃ l', l.remove e = some l' ∧ l'.len = l.len - 1 ∧ l'.mem.length = l.mem.length ∧
      (∀ q, l'.nextAt q = if q = e then none else if q = a then some n else l.nextAt q) ∧
      (∀ q, l'.prevAt q = if q = e then none else if q = n then some a else l.prevAt q) ∧
      (∀ q, l'.valueAt q = if q = e then none else l.valueAt q) := by
  have le := load_lt h1
  have la := load_lt h4
  have ln := load_lt h5
  have hae := Ne.symm hea
  have hne := Ne.symm hen
  have fa1 : l.nextAt a = pe.next := by simp [nextAt, h4]
  have fa2 : l.prevAt a = pe.prev := by simp [prevAt, h4]
  have fa3 : l.valueAt a = if pe.list then pe.Value else none := by simp [valueAt, h4]
  have fn1 : l.nextAt n = ne.next := by simp [nextAt, h5]
  have fn2 : l.prevAt n = ne.prev := by simp [prevAt, h5]
  have fn3 : l.valueAt n = if ne.list then ne.Value else none := by simp [valueAt, h5]
  simp only [remove, h1, h2, h3, h4, h5, load_store, store_length, Option.bind_eq_bind, Option.some_bind,
    hea, hen, hae, hne, le, la, ln, if_true, if_false, Option.pure_def]
  by_cases han : a = n
  · subst han
    simp only [if_true, Option.some_bind, Option.some.injEq, exists_eq_left']
    rw [h4] at h5; cases h5
    refine ⟨rfl, by simp [store_length], ?_, ?_, ?_⟩ <;> intro q <;>
      simp only [nextAt_len, prevAt_len, valueAt_len, nextAt_store, prevAt_store, valueAt_store,
        store_length, le, la, if_true] <;>
      rcases eq_or_ne q e with rfl | hqe
    all_goals first
      | (simp [hea, hae]; done)
      | (rcases eq_or_ne q a with rfl | hqa
         · simp [hea, hae, fa1, fa2, fa3]
         · simp [hqe, hqa, hqe.symm, hqa.symm])
  · have hna := Ne.symm han
    simp only [han, hna, if_false, h5, Option.some_bind, Option.some.injEq, exists_eq_left']
    refine ⟨rfl, by simp [store_length], ?_, ?_, ?_⟩ <;> intro q <;>
      simp only [nextAt_len, prevAt_len, valueAt_len, nextAt_store, prevAt_store, valueAt_store,
        store_length, le, la, ln, if_true] <;>
      rcases eq_or_ne q e with rfl | hqe
    all_goals first
      | (simp [hea, hae, hen, hne]; done)
      | (rcases eq_or_ne q a with rfl | hqa
         · simp [hea, hae, han, hna, fa1, fa2, fa3]
         · rcases eq_or_ne q n with rfl | hqn
           · simp [hen, hne, han, hna, fn1, fn2, fn3]
           · simp [hqe, hqa, hqn, hqe.symm, hqa.symm, hqn.symm])

theorem load_alloc (l : ContainerList T) (x : Element T) (q : Nat) :
    ({ l with mem := l.mem ++ [x] } : ContainerList T).load q =
      if q = l.mem.length then some x else l.load q := by
  simp only [load]
  rcases Nat.lt_trichotomy q l.mem.length with h | h | h
  · simp [List.getElem?_append_left h, h.ne]
  · subst h; simp
  · have h1 : ¬ q = l.mem.length := by omega
    have h2 : l.mem.length ≤ q := by omega
    simp [h1, List.getElem?_eq_none h2]; omega

theorem nextAt_alloc (l : ContainerList T) (x : Element T) (q : Nat) :
    ({ l with mem := l.mem ++ [x] } : ContainerList T).nextAt q =
      if q = l.mem.length then x.next else l.nextAt q := by
  simp only [nextAt, load_alloc]; split_ifs <;> rfl

theorem prevAt_alloc (l : ContainerList T) (x : Element T) (q : Nat) :
    ({ l with mem := l.mem ++ [x] } : ContainerList T).prevAt q =
      if q = l.mem.length then x.prev else l.prevAt q := by
  simp only [prevAt, load_alloc]; split_ifs <;> rfl

theorem valueAt_alloc (l : ContainerList T) (x : Element T) (q : Nat) :
    ({ l with mem := l.mem ++ [x] } : ContainerList T).valueAt q =
      if q = l.mem.length then (if x.list then x.Value else none) else l.valueAt q := by
  simp only [valueAt, load_alloc]; split_ifs <;> simp_all

theorem pushBack_spec (l : ContainerList T) (v : T) (a : Nat) (r pe : Element T)
    (h0 : l.load 0 = some r) (hr : r.next ≠ none) (hp : r.prev = some a)
    (ha : l.load a = some pe) (hn : pe.next = some 0) :
    ∃ l', l.PushBack v = some (l', l.mem.length) ∧ l'.len = l.len + 1 ∧
      l'.mem.length = l.mem.length + 1 ∧
      (∀ q, l'.nextAt q =
        if q = l.mem.length then some 0 else if q = a then some l.mem.length else l.nextAt q) ∧
      (∀ q, l'.prevAt q =
        if q = l.mem.length then some a else if q = 0 then some l.mem.length else l.prevAt q) ∧
      (∀ q, l'.valueAt q = if q = l.mem.length then some v else l.valueAt q) := by
  have l0 := load_lt h0
  have la := load_lt ha
  have hae : a ≠ l.mem.length := by omega
  have h0e : 0 ≠ l.mem.length := by omega
  have f01 : l.nextAt 0 = r.next := by simp [nextAt, h0]
  have f02 : l.prevAt 0 = r.prev := by simp [prevAt, h0]
  have f03 : l.valueAt 0 = if r.list then r.Value else none := by simp [valueAt, h0]
  have fa1 : l.nextAt a = pe.next := by simp [nextAt, ha]
  have fa2 : l.prevAt a = pe.prev := by simp [prevAt, ha]
  have fa3 : l.valueAt a = if pe.list then pe.Value else none := by simp [valueAt, ha]
  simp only [PushBack, lazyInit, h0, hr, hp, if_false, Option.bind_eq_bind, Option.some_bind,
    Option.pure_def, insertValue, load_store, load_alloc, store_length, List.length_append,
    List.length_singleton, if_true, hae, hae.symm, ha, la, h0e, h0e.symm, hn, l0,
    Nat.lt_succ_self, lt_add_one, Nat.lt_succ_of_lt la, Nat.lt_succ_of_lt l0]
  by_cases ha0 : a = 0
  · subst ha0
    rw [h0] at ha; cases ha
    simp only [if_true, Option.some_bind, Prod.mk.injEq, Option.some.injEq, and_true,
      exists_eq_left']
    refine ⟨rfl, by simp [store_length], ?_, ?_, ?_⟩ <;> intro q <;>
      simp only [nextAt_len, prevAt_len, valueAt_len, nextAt_store, prevAt_store, valueAt_store,
        nextAt_alloc, prevAt_alloc, valueAt_alloc,
        store_length, List.length_append, List.length_singleton, lt_add_one,
        Nat.lt_succ_of_lt l0, if_true] <;>
      rcases eq_or_ne q l.mem.length with hq | hq
    all_goals first
      | (subst hq; simp [h0e, h0e.symm])
      | (rcases eq_or_ne q 0 with rfl | hq0
         · simp [h0e, h0e.symm, f01, f02, f03]
         · simp [hq, hq0, hq.symm, hq0.symm])
  · have h0a := Ne.symm ha0
    simp only [ha0, if_false, Option.some_bind, Prod.mk.injEq, Option.some.injEq, and_true,
      exists_eq_left']
    refine ⟨rfl, by simp [store_length], ?_, ?_, ?_⟩ <;> intro q <;>
      simp only [nextAt_len, prevAt_len, valueAt_len, nextAt_store, prevAt_store, valueAt_store,
        nextAt_alloc, prevAt_alloc, valueAt_alloc,
        store_length, List.length_append, List.length_singleton, lt_add_one,
        Nat.lt_succ_of_lt l0, Nat.lt_succ_of_lt la, if_true] <;>
      rcases eq_or_ne q l.mem.length with hq | hq
    all_goals first
      | (subst hq; simp [h0e, h0e.symm, hae, hae.symm])
      | (rcases eq_or_ne q 0 with rfl | hq0
         · simp [h0e, h0e.symm, f01, f02, f03, ha0, h0a]
         · rcases eq_or_ne q a with rfl | hqa
           · simp [hae, hae.symm, ha0, h0a, fa1, fa2, fa3]
           · simp [hq, hq0, hqa, hq.symm, hq0.symm, hqa.symm])

/-! ### Chains -/

theorem Chain.split {l : ContainerList T} : ∀ (ns : List (Nat × T)) (a : Nat) (m : Nat × T)
    (ms : List (Nat × T)) (z : Nat),
    l.Chain a (ns ++ m :: ms) z ↔ l.Chain a ns m.1 ∧ l.valueAt m.1 = some m.2 ∧ l.Chain m.1 ms z
  | [], a, m, ms, z => by simp [Chain]
  | n :: ns, a, m, ms, z => by
    have ih := Chain.split (l := l) ns n.1 m ms z
    show (l.Link a n.1 ∧ l.valueAt n.1 = some n.2 ∧ l.Chain n.1 (ns ++ m :: ms) z) ↔
      (l.Link a n.1 ∧ l.valueAt n.1 = some n.2 ∧ l.Chain n.1 ns m.1) ∧ _ ∧ _
    rw [ih]
    tauto

theorem Chain.first {l : ContainerList T} {a z : Nat} {ns : List (Nat × T)}
    (h : l.Chain a ns z) : l.Link a (firstAddr ns z) := by
  cases ns with
  | nil => exact h
  | cons n ns => exact h.1

theorem Chain.last {l : ContainerList T} : ∀ {ns : List (Nat × T)} {a z : Nat},
    l.Chain a ns z → l.Link (lastAddr a ns) z
  | [], _, _, h => h
  | n :: ns, _, z, h => @Chain.last l ns n.1 z h.2.2

theorem lastAddr_mem : ∀ (ns : List (Nat × T)) (a : Nat), lastAddr a ns ∈ a :: ns.map Prod.fst
  | [], a => by simp [lastAddr]
  | n :: ns, a => by
    have := lastAddr_mem ns n.1
    simp only [lastAddr, List.map_cons]
    exact List.mem_cons_of_mem _ this

theorem firstAddr_mem (ns : List (Nat × T)) (z : Nat) : firstAddr ns z ∈ ns.map Prod.fst ++ [z] := by
  cases ns <;> simp [firstAddr]

theorem lastAddr_append (ns ms : List (Nat × T)) (a : Nat) :
    lastAddr a (ns ++ ms) = lastAddr (lastAddr a ns) ms := by
  induction ns generalizing a with
  | nil => rfl
  | cons n ns ih => simp [lastAddr, ih]

theorem Chain.congr {l l' : ContainerList T} : ∀ {ns : List (Nat × T)} {a z : Nat},
    l.Chain a ns z →
    (∀ q ∈ a :: ns.map Prod.fst, l'.nextAt q = l.nextAt q) →
    (∀ q ∈ ns.map Prod.fst ++ [z], l'.prevAt q = l.prevAt q) →
    (∀ q ∈ ns.map Prod.fst, l'.valueAt q = l.valueAt q) → l'.Chain a ns z
  | [], a, z, h, hn, hp, _ => by
    refine ⟨?_, ?_⟩
    · rw [hn a (by simp)]; exact h.1
    · rw [hp z (by simp)]; exact h.2
  | n :: ns, a, z, h, hn, hp, hv => by
    refine ⟨⟨?_, ?_⟩, ?_, ?_⟩
    · rw [hn a (by simp)]; exact h.1.1
    · rw [hp n.1 (by simp)]; exact h.1.2
    · rw [hv n.1 (by simp)]; exact h.2.1
    · refine Chain.congr h.2.2 ?_ ?_ ?_
      · intro q hq; exact hn q (List.mem_cons_of_mem _ (by simpa using hq))
      · intro q hq; exact hp q (by simp at hq ⊢; tauto)
      · intro q hq; exact hv q (by simp at hq ⊢; tauto)

/-- Moving the end of a chain: the last element gets a new successor `z'`. -/
theorem Chain.retarget {l l' : ContainerList T} (z' : Nat) : ∀ {ns : List (Nat × T)} {a z : Nat},
    l.Chain a ns z → (a :: ns.map Prod.fst).Nodup →
    (∀ q ∈ a :: ns.map Prod.fst, q ≠ lastAddr a ns → l'.nextAt q = l.nextAt q) →
    l'.nextAt (lastAddr a ns) = some z' → l'.prevAt z' = some (lastAddr a ns) →
    (∀ q ∈ ns.map Prod.fst, l'.prevAt q = l.prevAt q) →
    (∀ q ∈ ns.map Prod.fst, l'.valueAt q = l.valueAt q) → l'.Chain a ns z'
  | [], a, z, _, _, _, h1, h2, _, _ => ⟨h1, h2⟩
  | n :: ns, a, z, h, hnd, hn, h1, h2, hp, hv => by
    have hnd' : (n.1 :: ns.map Prod.fst).Nodup := (List.nodup_cons.1 hnd).2
    have hane : a ≠ lastAddr n.1 ns := by
      intro he
      exact (List.nodup_cons.1 hnd).1 (he ▸ lastAddr_mem ns n.1)
    refine ⟨⟨?_, ?_⟩, ?_, ?_⟩
    · rw [hn a (by simp) hane]; exact h.1.1
    · rw [hp n.1 (by simp)]; exact h.1.2
    · rw [hv n.1 (by simp)]; exact h.2.1
    · refine Chain.retarget z' h.2.2 hnd' ?_ h1 h2 ?_ ?_
      · intro q hq hne; exact hn q (List.mem_cons_of_mem _ hq) hne
      · intro q hq; exact hp q (by simp at hq ⊢; tauto)
      · intro q hq; exact hv q (by simp at hq ⊢; tauto)

theorem Chain.addr_lt {l : ContainerList T} : ∀ {ns : List (Nat × T)} {a z : Nat},
    l.Chain a ns z → ∀ q ∈ a :: ns.map Prod.fst, q < l.mem.length
  | [], a, z, h, q, hq => by
    simp at hq; subst hq
    have := h.1
    unfold nextAt load at this
    by_contra hlt
    simp [List.getElem?_eq_none (not_lt.1 hlt)] at this
  | n :: ns, a, z, h, q, hq => by
    rcases List.mem_cons.1 hq with rfl | hq
    · have := h.1.1
      unfold nextAt load at this
      by_contra hlt
      simp [List.getElem?_eq_none (not_lt.1 hlt)] at this
    · exact Chain.addr_lt h.2.2 q (by simpa using hq)

/-! ### The ring invariant under `New`, `PushBack` and `Remove` -/

theorem ring_new : (New : ContainerList T).Ring [] := by
  refine ⟨⟨?_, ?_⟩, by simp, rfl⟩ <;> rfl

theorem nextAt_some_load {l : ContainerList T} {q b : Nat} (h : l.nextAt q = some b) :
    ∃ el, l.load q = some el ∧ el.next = some b := by
  unfold nextAt at h
  cases hl : l.load q with
  | none => simp [hl] at h
  | some el => exact ⟨el, rfl, by simpa [hl] using h⟩

theorem prevAt_some_load {l : ContainerList T} {q b : Nat} (h : l.prevAt q = some b) :
    ∃ el, l.load q = some el ∧ el.prev = some b := by
  unfold prevAt at h
  cases hl : l.load q with
  | none => simp [hl] at h
  | some el => exact ⟨el, rfl, by simpa [hl] using h⟩

theorem valueAt_some_load {l : ContainerList T} {q : Nat} {x : T} (h : l.valueAt q = some x) :
    ∃ el, l.load q = some el ∧ el.list = true ∧ el.Value = some x := by
  unfold valueAt at h
  cases hl : l.load q with
  | none => simp [hl] at h
  | some el =>
    simp only [hl, Option.some_bind] at h
    by_cases hb : el.list = true
    · exact ⟨el, rfl, hb, by simpa [hb] using h⟩
    · simp [hb] at h

theorem Ring.push {l : ContainerList T} {ns : List (Nat × T)} (h : l.Ring ns) (v : T) :
    ∃ l', l.PushBack v = some (l', l.mem.length) ∧ l'.Ring (ns ++ [(l.mem.length, v)]) ∧
      l'.mem.length = l.mem.length + 1 := by
  have hlast := h.chain.last
  have hfirst := h.chain.first
  obtain ⟨r, hr0, hrp⟩ := prevAt_some_load hlast.2
  obtain ⟨pe, hpe, hpn⟩ := nextAt_some_load hlast.1
  obtain ⟨r', hr0', hrn⟩ := nextAt_some_load hfirst.1
  rw [hr0] at hr0'; cases hr0'
  obtain ⟨l', hpush, hlen, hmem, hnx, hpv, hvl⟩ :=
    pushBack_spec l v (lastAddr 0 ns) r pe hr0 (by simp [hrn]) hrp hpe hpn
  have hlt := h.chain.addr_lt
  have hfresh : l.mem.length ∉ (0 :: ns.map Prod.fst) := fun hm => lt_irrefl _ (hlt _ hm)
  refine ⟨l', hpush, ⟨?_, ?_, ?_⟩, hmem⟩
  · rw [Chain.split]
    refine ⟨?_, ?_, ?_⟩
    · refine Chain.retarget l.mem.length h.chain h.nodup ?_ ?_ ?_ ?_ ?_
      · intro q hq hne
        have : q ≠ l.mem.length := fun he => hfresh (he ▸ hq)
        rw [hnx, if_neg this, if_neg hne]
      · have : lastAddr 0 ns ≠ l.mem.length := fun he => hfresh (he ▸ lastAddr_mem ns 0)
        rw [hnx, if_neg this, if_pos rfl]
      · rw [hpv, if_pos rfl]
      · intro q hq
        have h1 : q ≠ l.mem.length := fun he => hfresh (he ▸ List.mem_cons_of_mem _ hq)
        have h2 : q ≠ 0 := fun he => (List.nodup_cons.1 h.nodup).1 (he ▸ hq)
        rw [hpv, if_neg h1, if_neg h2]
      · intro q hq
        have h1 : q ≠ l.mem.length := fun he => hfresh (he ▸ List.mem_cons_of_mem _ hq)
        rw [hvl, if_neg h1]
    · show l'.valueAt l.mem.length = some v
      rw [hvl, if_pos rfl]
    · refine ⟨?_, ?_⟩
      · show l'.nextAt l.mem.length = some 0
        rw [hnx, if_pos rfl]
      · show l'.prevAt 0 = some l.mem.length
        have : (0 : Nat) ≠ l.mem.length := fun he => hfresh (he ▸ List.mem_cons_self _ _)
        rw [hpv, if_neg this, if_pos rfl]
  · have := h.nodup
    simp only [List.map_append, List.map_cons, List.map_nil]
    rw [← List.cons_append]
    refine List.Nodup.append this (by simp) ?_
    simpa using hfresh
  · rw [hlen, h.len]; simp

theorem Ring.remove {l : ContainerList T} {as bs : List (Nat × T)} {m : Nat × T}
    (h : l.Ring (as ++ m :: bs)) :
    ∃ l', l.Remove m.1 = some l' ∧ l'.Ring (as ++ bs) ∧ l'.mem.length = l.mem.length ∧
      l'.Next m.1 = some none := by
  obtain ⟨hA, hm, hB⟩ := (Chain.split as 0 m bs 0).1 h.chain
  have hlast := hA.last
  have hfirst := hB.first
  obtain ⟨el, hel, hlist, _⟩ := valueAt_some_load hm
  obtain ⟨el1, hel1, hprev⟩ := prevAt_some_load hlast.2
  obtain ⟨el2, hel2, hnext⟩ := nextAt_some_load hfirst.1
  rw [hel] at hel1 hel2; cases hel1; cases hel2
  obtain ⟨pe, hpe, _⟩ := nextAt_some_load hlast.1
  obtain ⟨ne, hne, _⟩ := prevAt_some_load hfirst.2
  have hnd := h.nodup
  simp only [List.map_append, List.map_cons] at hnd
  have hnd0 : (0 : Nat) ∉ as.map Prod.fst ++ m.1 :: bs.map Prod.fst := (List.nodup_cons.1 hnd).1
  have hnd1 : (as.map Prod.fst ++ m.1 :: bs.map Prod.fst).Nodup := (List.nodup_cons.1 hnd).2
  have hmA : m.1 ∉ as.map Prod.fst := by
    intro hx
    have := List.nodup_append.1 hnd1
    exact this.2.2 hx (List.mem_cons_self _ _)
  have hmB : m.1 ∉ bs.map Prod.fst := by
    have := (List.nodup_append.1 hnd1).2.1
    exact (List.nodup_cons.1 this).1
  have hm0 : m.1 ≠ 0 := by
    intro he; apply hnd0; rw [← he]; simp
  have hAB : ∀ q, q ∈ as.map Prod.fst → q ∈ bs.map Prod.fst → False := by
    intro q h1 h2
    exact (List.nodup_append.1 hnd1).2.2 h1 (List.mem_cons_of_mem _ h2)
  have hea : m.1 ≠ lastAddr 0 as := by
    intro he
    rcases List.mem_cons.1 (lastAddr_mem as 0) with h0 | h1
    · exact hm0 (he.trans h0)
    · exact hmA (he ▸ h1)
  have hen : m.1 ≠ firstAddr bs 0 := by
    intro he
    have := firstAddr_mem bs 0
    rw [← he] at this
    rcases List.mem_append.1 this with h1 | h1
    · exact hmB h1
    · exact hm0 (by simpa using h1)
  obtain ⟨l', hrem, hlen, hmem, hnx, hpv, hvl⟩ :=
    remove_spec l m.1 (lastAddr 0 as) (firstAddr bs 0) el pe ne hea hen hel hprev hnext hpe hne
  have hndA : (0 :: as.map Prod.fst).Nodup := by
    refine List.nodup_cons.2 ⟨fun hx => hnd0 (List.mem_append_left _ hx), ?_⟩
    exact (List.nodup_append.1 hnd1).1
  have hnA : firstAddr bs 0 ∉ as.map Prod.fst := by
    intro hx
    rcases List.mem_append.1 (firstAddr_mem bs 0) with h1 | h1
    · exact hAB _ hx h1
    · have : firstAddr bs 0 = 0 := by simpa using h1
      exact hnd0 (List.mem_append_left _ (this ▸ hx))
  -- the first part of the chain now ends at the successor of the removed element
  have hA' : l'.Chain 0 as (firstAddr bs 0) := by
    refine Chain.retarget _ hA hndA ?_ ?_ ?_ ?_ ?_
    · intro q hq hne'
      have : q ≠ m.1 := by
        rintro rfl
        rcases List.mem_cons.1 hq with h0 | h1
        · exact hm0 h0
        · exact hmA h1
      rw [hnx, if_neg this, if_neg hne']
    · rw [hnx, if_neg (Ne.symm hea), if_pos rfl]
    · rw [hpv, if_neg (Ne.symm hen), if_pos rfl]
    · intro q hq
      have h1 : q ≠ m.1 := by rintro rfl; exact hmA hq
      have h2 : q ≠ firstAddr bs 0 := by rintro rfl; exact hnA hq
      rw [hpv, if_neg h1, if_neg h2]
    · intro q hq
      have h1 : q ≠ m.1 := by rintro rfl; exact hmA hq
      rw [hvl, if_neg h1]
  have hchain : l'.Chain 0 (as ++ bs) 0 := by
    cases bs with
    | nil => simpa [firstAddr] using hA'
    | cons b bs' =>
      rw [Chain.split]
      have hB' : l.Link m.1 b.1 ∧ l.valueAt b.1 = some b.2 ∧ l.Chain b.1 bs' 0 := hB
      have hbm : b.1 ≠ m.1 := by
        rintro he; exact hmB (by simp [← he])
      have hndB : (b.1 :: bs'.map Prod.fst).Nodup := by
        have := (List.nodup_append.1 hnd1).2.1
        exact (List.nodup_cons.1 this).2
      refine ⟨hA', ?_, ?_⟩
      · rw [hvl, if_neg hbm]; exact hB'.2.1
      · refine Chain.congr hB'.2.2 ?_ ?_ ?_
        · intro q hq
          have h1 : q ≠ m.1 := by
            rintro rfl; exact hmB (by simpa using hq)
          have h2 : q ≠ lastAddr 0 as := by
            rintro rfl
            rcases List.mem_cons.1 (lastAddr_mem as 0) with h0 | h1
            · apply hnd0; rw [← h0]
              exact List.mem_append_right _ (List.mem_cons_of_mem _ (by simpa using hq))
            · exact hAB _ h1 (by simpa using hq)
          rw [hnx, if_neg h1, if_neg h2]
        · intro q hq
          have h1 : q ≠ m.1 := by
            rintro rfl
            rcases List.mem_append.1 hq with h | h
            · exact hmB (List.mem_cons_of_mem _ h)
            · exact hm0 (by simpa using h)
          have h2 : q ≠ b.1 := by
            rintro rfl
            rcases List.mem_append.1 hq with h | h
            · exact (List.nodup_cons.1 hndB).1 h
            · apply hnd0
              have : b.1 = 0 := by simpa using h
              rw [← this]
              exact List.mem_append_right _ (List.mem_cons_of_mem _ (by simp))
          rw [hpv, if_neg h1]
          simp only [firstAddr] at hpv ⊢
          rw [if_neg h2]
        · intro q hq
          have h1 : q ≠ m.1 := by
            rintro rfl; exact hmB (List.mem_cons_of_mem _ hq)
          rw [hvl, if_neg h1]
  have hRem : l.Remove m.1 = some l' := by
    simp [Remove, hel, hlist, hrem]
  refine ⟨l', hRem, ⟨hchain, ?_, ?_⟩, hmem, ?_⟩
  · simp only [List.map_append]
    refine List.nodup_cons.2 ⟨?_, ?_⟩
    · intro hx
      apply hnd0
      rcases List.mem_append.1 hx with h1 | h1
      · exact List.mem_append_left _ h1
      · exact List.mem_append_right _ (List.mem_cons_of_mem _ h1)
    · have := List.nodup_append.1 hnd1
      refine List.nodup_append.2 ⟨this.1, (List.nodup_cons.1 this.2.1).2, ?_⟩
      intro a ha hb
      exact this.2.2 ha (List.mem_cons_of_mem _ hb)
  · rw [hlen, h.len]; simp only [List.length_append, List.length_cons]; push_cast; ring
  · have hlt : m.1 < l'.mem.length := hmem ▸ load_lt hel
    have hn := hnx m.1
    rw [if_pos rfl] at hn
    unfold Next
    unfold nextAt at hn
    cases hl : l'.load m.1 with
    | none =>
      unfold load at hl
      simp [List.getElem?_eq_none_iff] at hl
      omega
    | some el' =>
      simp only [hl, Option.some_bind] at hn
      simp [hn]

end ContainerList

/-! ## Lemmas: the linked list on its contents -/

namespace LinkedList
open ContainerList
variable {T σ : Type}

theorem nodup_length_le {l : List Nat} {n : Nat} (hnd : l.Nodup) (hlt : ∀ x ∈ l, x < n) :
    l.length ≤ n := by
  have h1 : l.toFinset ⊆ Finset.range n := by
    intro x hx
    exact Finset.mem_range.2 (hlt x (List.mem_toFinset.1 hx))
  have h2 := Finset.card_le_card h1
  rwa [List.toFinset_card_of_nodup hnd, Finset.card_range] at h2

theorem Ring.length_lt {l : ContainerList T} {ns : List (Nat × T)} (h : l.Ring ns) :
    ns.length < l.mem.length := by
  have := nodup_length_le h.nodup h.chain.addr_lt
  simpa using this

theorem Ring.front {l : ContainerList T} {ns : List (Nat × T)} (h : l.Ring ns) :
    l.Front = some (cursorOf ns) := by
  unfold Front
  cases ns with
  | nil => simp [h.len, cursorOf]
  | cons n ns =>
    have hlen : l.len ≠ 0 := by rw [h.len]; simp; omega
    obtain ⟨r, hr, hn⟩ := nextAt_some_load h.chain.1.1
    simp [hlen, hr, hn, cursorOf]

/-- `Next` on an element of the ring that is followed by the chain `ns`. -/
theorem next_of_chain {l : ContainerList T} {as ns : List (Nat × T)} {m : Nat × T}
    (h : l.Ring (as ++ m :: ns)) : l.Next m.1 = some (cursorOf ns) := by
  obtain ⟨_, hm, hB⟩ := (Chain.split as 0 m ns 0).1 h.chain
  obtain ⟨el, hel, hlist, _⟩ := valueAt_some_load hm
  obtain ⟨el', hel', hnext⟩ := nextAt_some_load hB.first.1
  rw [hel] at hel'; cases hel'
  cases ns with
  | nil => simp [Next, hel, hlist, hnext, firstAddr, cursorOf]
  | cons b bs =>
    have hb0 : b.1 ≠ 0 := by
      intro he
      have := (List.nodup_cons.1 h.nodup).1
      apply this
      rw [← he]; simp
    simp [Next, hel, hlist, hnext, firstAddr, cursorOf, hb0]

theorem iterateRemoveLoop_ring (f : T → σ → Option (Bool × σ)) :
    ∀ (ns as : List (Nat × T)) (l : ContainerList T) (s : σ) (fuel : Nat),
      l.Ring (as ++ ns) → ns.length + 1 ≤ fuel →
      match cullFirst f (ns.map Prod.snd) s with
      | none => iterateRemoveLoop f fuel (cursorOf ns) l s = none
      | some (ys, s') => ∃ l' ns', iterateRemoveLoop f fuel (cursorOf ns) l s = some (l', s') ∧
          l'.Ring (as ++ ns') ∧ ns'.map Prod.snd = ys ∧ l'.mem.length = l.mem.length
  | [], as, l, s, fuel, h, hf => by
    obtain ⟨k, rfl⟩ : ∃ k, fuel = k + 1 := ⟨fuel - 1, by omega⟩
    simp only [List.map_nil, cullFirst, cursorOf, iterateRemoveLoop]
    exact ⟨l, [], rfl, h, rfl, rfl⟩
  | m :: ns, as, l, s, fuel, h, hf => by
    obtain ⟨k, rfl⟩ : ∃ k, fuel = k + 1 := ⟨fuel - 1, by omega⟩
    obtain ⟨_, hm, _⟩ := (Chain.split as 0 m ns 0).1 h.chain
    obtain ⟨el, hel, hlist, hval⟩ := valueAt_some_load hm
    simp only [List.map_cons, cullFirst, cursorOf, iterateRemoveLoop, hel, hval,
      Option.bind_eq_bind, Option.some_bind]
    cases hfx : f m.2 s with
    | none => simp
    | some bs =>
      obtain ⟨b, s1⟩ := bs
      cases b with
      | true =>
        obtain ⟨l', hrem, hring, hmem, hnext⟩ := Ring.remove h
        obtain ⟨k', rfl⟩ : ∃ k', k = k' + 1 := ⟨k - 1, by simp at hf; omega⟩
        simp only [Option.some_bind, if_true, hrem, hnext, iterateRemoveLoop]
        exact ⟨l', ns, rfl, hring, rfl, hmem⟩
      | false =>
        have hnext := next_of_chain h
        have h' : l.Ring ((as ++ [m]) ++ ns) := by simpa using h
        have ih := iterateRemoveLoop_ring f ns (as ++ [m]) l s1 k h' (by simp at hf; omega)
        simp only [Option.some_bind, Option.pure_def, hnext, Bool.false_eq_true, if_false]
        cases hc : cullFirst f (ns.map Prod.snd) s1 with
        | none => simpa [hc] using ih
        | some r =>
          obtain ⟨ys, s2⟩ := r
          simp only [hc] at ih
          obtain ⟨l', ns', hl, hr, hmap, hmem⟩ := ih
          exact ⟨l', m :: ns', hl, by simpa using hr, by simp [hmap], hmem⟩

theorem iterateLoop_ring (f : T → σ → Option σ) :
    ∀ (ns as : List (Nat × T)) (l : ContainerList T) (s : σ) (fuel : Nat),
      l.Ring (as ++ ns) → ns.length + 1 ≤ fuel →
      iterateLoop f fuel (cursorOf ns) l s = visitAll f (ns.map Prod.snd) s
  | [], as, l, s, fuel, h, hf => by
    obtain ⟨k, rfl⟩ : ∃ k, fuel = k + 1 := ⟨fuel - 1, by omega⟩
    simp [visitAll, cursorOf, iterateLoop]
  | m :: ns, as, l, s, fuel, h, hf => by
    obtain ⟨k, rfl⟩ : ∃ k, fuel = k + 1 := ⟨fuel - 1, by omega⟩
    obtain ⟨_, hm, _⟩ := (Chain.split as 0 m ns 0).1 h.chain
    obtain ⟨el, hel, hlist, hval⟩ := valueAt_some_load hm
    simp only [List.map_cons, visitAll, cursorOf, iterateLoop, hel, hval,
      Option.bind_eq_bind, Option.some_bind]
    cases hfx : f m.2 s with
    | none => simp
    | some s1 =>
      have hnext := next_of_chain h
      have h' : l.Ring ((as ++ [m]) ++ ns) := by simpa using h
      have ih := iterateLoop_ring f ns (as ++ [m]) l s1 k h' (by simp at hf; omega)
      simp only [Option.some_bind, hnext, ih]

/-! ### The registry operations on the contents -/

theorem represents_new : (NewLinkedList : LinkedList T).Represents [] :=
  ⟨[], ring_new, rfl⟩

theorem Represents.len {r : LinkedList T} {xs : List T} (h : r.Represents xs) :
    r.Len = xs.length := by
  obtain ⟨ns, hr, rfl⟩ := h
  simp [Len, ContainerList.Len, hr.len]

theorem Represents.pushBack {r : LinkedList T} {xs : List T} (h : r.Represents xs) (v : T) :
    ∃ r', r.PushBack v = some r' ∧ r'.Represents (xs ++ [v]) := by
  obtain ⟨ns, hr, rfl⟩ := h
  obtain ⟨l', hp, hr', _⟩ := hr.push v
  refine ⟨⟨l'⟩, by simp [PushBack, hp], ns ++ [(r.l.mem.length, v)], hr', by simp⟩

theorem Represents.iterate {r : LinkedList T} {xs : List T} (h : r.Represents xs)
    (f : T → σ → Option σ) (s : σ) : r.Iterate f s = visitAll f xs s := by
  obtain ⟨ns, hr, rfl⟩ := h
  have := iterateLoop_ring f ns [] r.l s (r.l.mem.length + 1) (by simpa using hr)
    (by have := Ring.length_lt hr; omega)
  simp [Iterate, Ring.front hr, this]

theorem visitAll_log (xs acc : List T) :
    visitAll (fun v acc => some (acc ++ [v])) xs acc = some (acc ++ xs) := by
  induction xs generalizing acc with
  | nil => simp [visitAll]
  | cons x xs ih => simp [visitAll, ih]

theorem Represents.toList {r : LinkedList T} {xs : List T} (h : r.Represents xs) :
    r.toList = some xs := by
  simp [LinkedList.toList, h.iterate, visitAll_log]

theorem Represents.iterateRemove {r : LinkedList T} {xs : List T} (h : r.Represents xs)
    (f : T → σ → Option (Bool × σ)) (s : σ) :
    match cullFirst f xs s with
    | none => r.IterateRemove f s = none
    | some (ys, s') => ∃ r', r.IterateRemove f s = some (r', s') ∧ r'.Represents ys := by
  obtain ⟨ns, hr, rfl⟩ := h
  have := iterateRemoveLoop_ring f ns [] r.l s (r.l.mem.length + 1) (by simpa using hr)
    (by have := Ring.length_lt hr; omega)
  cases hc : cullFirst f (ns.map Prod.snd) s with
  | none =>
    simp only [hc] at this ⊢
    simp [IterateRemove, Ring.front hr, this]
  | some r1 =>
    obtain ⟨ys, s'⟩ := r1
    simp only [hc] at this ⊢
    obtain ⟨l', ns', hl, hring, hmap, _⟩ := this
    exact ⟨⟨l'⟩, by simp [IterateRemove, Ring.front hr, hl], ns', by simpa using hring, hmap⟩

end LinkedList

/-! ## Lemmas: Slug -/

/-! ### Slug -/

theorem Move_valid (p : PreciseCoordinates) (d : Direction) (dist : Float64) (hd : d ≤ West) :
    ∃ q, p.Move d dist = some q := by
  unfold PreciseCoordinates.Move
  have h3 : d ≤ 3 := hd
  interval_cases d <;> simp [North, East, South, West]

theorem Slug.Beat_some {s s' : Slug} {b : Bool} (h : s.Beat = some (s', b)) :
    s'.age = (s.age + 1) % 2 ^ 64 ∧ s'.movementDirection = s.movementDirection ∧
      (b = true ↔ (s.age + 1) % 2 ^ 64 ≤ SlugAgeThreshold) := by
  unfold Slug.Beat at h
  simp only at h
  split_ifs at h with hc
  · cases h; simp; omega
  · cases hm : s.position.Move s.movementDirection SlugSpeed with
    | none => simp [hm] at h
    | some q =>
      simp [hm] at h
      obtain ⟨rfl, rfl⟩ := h
      simp; omega

theorem Slug.Beat_valid (s : Slug) (hd : s.movementDirection ≤ West) :
    ∃ s' b, s.Beat = some (s', b) := by
  unfold Slug.Beat
  simp only
  split_ifs with hc
  · exact ⟨_, _, rfl⟩
  · obtain ⟨q, hq⟩ := Move_valid s.position s.movementDirection SlugSpeed hd
    exact ⟨_, _, by simp [hq]; exact ⟨rfl, rfl⟩⟩

theorem Slug.beats_age : ∀ (n : Nat) (s : Slug), s.movementDirection ≤ West →
    s.age + n ≤ SlugAgeThreshold →
    ∃ s1, s.beats n = some s1 ∧ s1.age = s.age + n ∧ s1.movementDirection = s.movementDirection
  | 0, s, _, _ => ⟨s, rfl, rfl, rfl⟩
  | n + 1, s, hd, ha => by
    obtain ⟨s', b, hb⟩ := Slug.Beat_valid s hd
    obtain ⟨h1, h2, _⟩ := Slug.Beat_some hb
    have hsmall : (s.age + 1) % 2 ^ 64 = s.age + 1 := by
      unfold SlugAgeThreshold at ha
      exact Nat.mod_eq_of_lt (by omega)
    rw [hsmall] at h1
    obtain ⟨s1, hs1, ha1, hd1⟩ := Slug.beats_age n s' (h2 ▸ hd) (by omega)
    refine ⟨s1, ?_, by omega, hd1.trans h2⟩
    simp [Slug.beats, hb, hs1]

/-- SlugSpeed is the binary64 number nearest to 0.12 -/
theorem SlugSpeed_nearest :
    SlugSpeed = Float64.fin ((8646911284551352 * 2 ^ 1018 : Nat) : Int) ∧
      2 ^ 52 ≤ 8646911284551352 ∧ 8646911284551352 < 2 ^ 53 ∧
      8646911284551352 * 100 ≤ 12 * 2 ^ 56 ∧ 2 * (12 * 2 ^ 56 - 8646911284551352 * 100) ≤ 100 := by
  decide!


/-! ## Lemmas: the world step -/

namespace World
open LinkedList

/-! ### The culling traversal -/

theorem cullIterator_eq (w h : Int) (e : Entity) (slugs : List Slug) (s s1 : Slug) (b : Bool)
    (hs : slugs[e]? = some s) (hb : s.Beat = some (s1, b)) :
    cullIterator w h e slugs =
      some (!b || decide (s1.Position.x ≥ w) || decide (s1.Position.y ≥ h), slugs.set e s1) := by
  have hlt : e < slugs.length := (List.getElem?_eq_some_iff.1 hs).1
  cases b with
  | false => simp [cullIterator, Entity.Beat, hs, hb]
  | true =>
    simp only [cullIterator, Entity.Beat, hs, hb, Option.bind_eq_bind, Option.some_bind,
      Option.pure_def, Entity.Position, Bool.not_true, Bool.false_eq_true, if_false,
      List.getElem?_set_self, hlt, List.getElem?_eq_getElem, List.length_set, List.getElem_set_self,
      Bool.false_or]
    by_cases hx : s1.Position.x ≥ w <;> by_cases hy : s1.Position.y ≥ h <;> simp [hx, hy]

theorem cullIterator_none_of_invalid (w h : Int) (e : Entity) (slugs : List Slug)
    (hs : slugs[e]? = none) : cullIterator w h e slugs = none := by
  simp [cullIterator, Entity.Beat, hs]

/-- On entities that point to Slugs with a declared direction the culling traversal returns; it
keeps a sublist of the entities, the store keeps its size, Slugs outside the registry are not
touched and no Slug changes direction. -/
theorem cullFirst_valid (w h : Int) : ∀ (es : List Entity) (slugs : List Slug),
    (∀ e ∈ es, ∃ s, slugs[e]? = some s ∧ s.movementDirection ≤ West) →
    ∃ es' slugs', cullFirst (cullIterator w h) es slugs = some (es', slugs') ∧
      es'.Sublist es ∧ slugs'.length = slugs.length ∧
      (∀ a, a ∉ es → slugs'[a]? = slugs[a]?) ∧
      (∀ (a : Nat) (s : Slug), slugs[a]? = some s →
        ∃ s' : Slug, slugs'[a]? = some s' ∧ s'.movementDirection = s.movementDirection)
  | [], slugs, _ => ⟨[], slugs, rfl, List.Sublist.refl _, rfl, fun _ _ => rfl,
      fun a s hs => ⟨s, hs, rfl⟩⟩
  | e :: es, slugs, hv => by
    obtain ⟨s, hs, hd⟩ := hv e (List.mem_cons_self _ _)
    obtain ⟨s1, b, hb⟩ := Slug.Beat_valid s hd
    have hd1 := (Slug.Beat_some hb).2.1
    have hit := cullIterator_eq w h e slugs s s1 b hs hb
    have hlt : e < slugs.length := (List.getElem?_eq_some_iff.1 hs).1
    have hframe : ∀ a, a ≠ e → (slugs.set e s1)[a]? = slugs[a]? := by
      intro a ha
      rw [List.getElem?_set_ne (Ne.symm ha)]
    have hdir : ∀ (a : Nat) (t : Slug), slugs[a]? = some t →
        ∃ t' : Slug, (slugs.set e s1)[a]? = some t' ∧
          t'.movementDirection = t.movementDirection := by
      intro a t ht
      by_cases hae : a = e
      · subst hae
        rw [hs] at ht; cases ht
        exact ⟨s1, by simp [hlt], hd1⟩
      · exact ⟨t, by rw [hframe a hae]; exact ht, rfl⟩
    generalize hflag : (!b || decide (s1.Position.x ≥ w) || decide (s1.Position.y ≥ h)) = flag
      at hit
    cases flag with
    | true =>
      refine ⟨es, slugs.set e s1, by simp [cullFirst, hit], List.sublist_cons_self _ _,
        by simp, ?_, hdir⟩
      intro a ha
      exact hframe a (fun he => ha (he ▸ List.mem_cons_self _ _))
    | false =>
      have hv' : ∀ e' ∈ es, ∃ t, (slugs.set e s1)[e']? = some t ∧ t.movementDirection ≤ West := by
        intro e' he'
        obtain ⟨t, ht, htd⟩ := hv e' (List.mem_cons_of_mem _ he')
        obtain ⟨t', ht', htd'⟩ := hdir e' t ht
        exact ⟨t', ht', htd' ▸ htd⟩
      obtain ⟨es', slugs', hc, hsub, hlen, hfr, hdr⟩ := cullFirst_valid w h es (slugs.set e s1) hv'
      refine ⟨e :: es', slugs', by simp [cullFirst, hit, hc], hsub.cons₂ _, by simpa using hlen,
        ?_, ?_⟩
      · intro a ha
        have h1 : a ∉ es := fun hx => ha (List.mem_cons_of_mem _ hx)
        have h2 : a ≠ e := fun he => ha (he ▸ List.mem_cons_self _ _)
        rw [hfr a h1, hframe a h2]
      · intro a t ht
        obtain ⟨t', ht', htd'⟩ := hdir a t ht
        obtain ⟨t'', ht'', htd''⟩ := hdr a t' ht'
        exact ⟨t'', ht'', htd''.trans htd'⟩

/-- The culling traversal when the first entity survives its beat inside the bounds. -/
theorem cullFirst_head_kept (w h : Int) (e : Entity) (es : List Entity) (slugs : List Slug)
    (s s1 : Slug) (hs : slugs[e]? = some s) (hb : s.Beat = some (s1, true))
    (hx : s1.Position.x < w) (hy : s1.Position.y < h) :
    cullFirst (cullIterator w h) (e :: es) slugs =
      (cullFirst (cullIterator w h) es (slugs.set e s1)).map (fun r => (e :: r.1, r.2)) := by
  have hit := cullIterator_eq w h e slugs s s1 true hs hb
  have : (!true || decide (s1.Position.x ≥ w) || decide (s1.Position.y ≥ h)) = false := by
    simp [hx, hy]
  rw [this] at hit
  simp only [cullFirst, hit]
  cases cullFirst (cullIterator w h) es (slugs.set e s1) with
  | none => rfl
  | some r => rfl

/-- The culling traversal when the first entity expires: it alone is removed. -/
theorem cullFirst_head_expired (w h : Int) (e : Entity) (es : List Entity) (slugs : List Slug)
    (s s1 : Slug) (hs : slugs[e]? = some s) (hb : s.Beat = some (s1, false)) :
    cullFirst (cullIterator w h) (e :: es) slugs = some (es, slugs.set e s1) := by
  have hit := cullIterator_eq w h e slugs s s1 false hs hb
  simp [cullFirst, hit]

theorem cull_eq (r : World) (es : List Entity) (hrep : r.entities.Represents es) :
    match cullFirst (cullIterator r.w r.h) es r.slugs with
    | none => r.cull = none
    | some (es', slugs') => ∃ ents, r.cull = some { r with entities := ents, slugs := slugs' } ∧
        ents.Represents es' := by
  have := hrep.iterateRemove (cullIterator r.w r.h) r.slugs
  cases hc : cullFirst (cullIterator r.w r.h) es r.slugs with
  | none =>
    simp only [hc] at this ⊢
    simp [cull, this]
  | some p =>
    obtain ⟨es', slugs'⟩ := p
    simp only [hc] at this ⊢
    obtain ⟨r', hr', hrep'⟩ := this
    exact ⟨r', by simp [cull, hr'], hrep'⟩

/-! ### The spawn -/

theorem Intn_pos (n : Rand) (k : Int) (hk : 0 < k) :
    ∃ v n', n.Intn k = some (v, n') ∧ 0 ≤ v ∧ v < k ∧ v = ((n.draws 0 % k.toNat : Nat) : Int) := by
  refine ⟨((n.draws 0 % k.toNat : Nat) : Int), { draws := fun i => n.draws (i + 1) },
    by simp [Rand.Intn, not_le.2 hk], by positivity, ?_, rfl⟩
  have h1 : 0 < k.toNat := by omega
  have := Nat.mod_lt (n.draws 0) h1
  omega

theorem spawn_eq (r : World) (es : List Entity) (hrep : r.entities.Represents es)
    (hw : 0 < r.w) (hh : 0 < r.h) :
    ∃ c n1, r.noise.Intn SlugSpawnChance = some (c, n1) ∧
      (c ≠ 0 → r.spawn = some { r with noise := n1 }) ∧
      (c = 0 → ∃ i j d n4 ents, 0 ≤ i ∧ i < r.w ∧ 0 ≤ j ∧ j < r.h ∧ d ≤ West ∧
        ents.Represents (es ++ [r.slugs.length]) ∧
        r.spawn = some { r with noise := n4, entities := ents, slugs := r.slugs ++
          [{ age := 0, position := { x := Float64.ofInt i, y := Float64.ofInt j },
             movementDirection := d }] }) := by
  obtain ⟨c, n1, hc, _, _, _⟩ := Intn_pos r.noise SlugSpawnChance (by decide)
  refine ⟨c, n1, hc, ?_, ?_⟩
  · intro hne
    simp [spawn, hc, hne]
  · intro h0
    obtain ⟨i, n2, hi, hi0, hi1, _⟩ := Intn_pos n1 r.w hw
    obtain ⟨j, n3, hj, hj0, hj1, _⟩ := Intn_pos n2 r.h hh
    obtain ⟨d, n4, hd, hd0, hd1, _⟩ := Intn_pos n3 4 (by decide)
    obtain ⟨ents, hpush, hrep'⟩ := hrep.pushBack r.slugs.length
    refine ⟨i, j, d.toNat, n4, ents, hi0, hi1, hj0, hj1, ?_, hrep', ?_⟩
    · show d.toNat ≤ 3
      omega
    · simp [spawn, hc, h0, hi, hj, hd, hpush]

end World

namespace World
open LinkedList

theorem derefAll_alloc (slugs : List Slug) (x : Slug) : ∀ (es : List Entity) (ss : List Slug),
    derefAll slugs es = some ss → derefAll (slugs ++ [x]) es = some ss
  | [], ss, h => by simpa [derefAll] using h
  | e :: es, ss, h => by
    simp only [derefAll] at h ⊢
    cases hs : slugs[e]? with
    | none => simp [hs] at h
    | some s =>
      cases hr : derefAll slugs es with
      | none => simp [hs, hr] at h
      | some ss' =>
        have hlt : e < slugs.length := (List.getElem?_eq_some_iff.1 hs).1
        have hs' : (slugs ++ [x])[e]? = some s := by
          rw [List.getElem?_append_left hlt]; exact hs
        simp only [hs, hr] at h
        simp only [hs', derefAll_alloc slugs x es ss' hr]
        exact h

theorem derefAll_append (slugs : List Slug) : ∀ (es fs : List Entity),
    derefAll slugs (es ++ fs) =
      match derefAll slugs es, derefAll slugs fs with
      | some a, some b => some (a ++ b)
      | _, _ => none
  | [], fs => by
    cases h : derefAll slugs fs <;> simp [derefAll, h]
  | e :: es, fs => by
    have ih := derefAll_append slugs es fs
    show (match slugs[e]?, derefAll slugs (es ++ fs) with
      | some s, some ss => some (s :: ss)
      | _, _ => none) = _
    rw [ih]
    simp only [derefAll]
    cases slugs[e]? <;> cases derefAll slugs es <;> cases derefAll slugs fs <;> simp

theorem derefAll_push (slugs : List Slug) (x : Slug) (es : List Entity) (ss : List Slug)
    (h : derefAll slugs es = some ss) :
    derefAll (slugs ++ [x]) (es ++ [slugs.length]) = some (ss ++ [x]) := by
  rw [derefAll_append, derefAll_alloc slugs x es ss h]
  simp [derefAll]

theorem registry_eq (r : World) (es : List Entity) (hrep : r.entities.Represents es) :
    r.registry = derefAll r.slugs es := by
  simp [registry, hrep.toList]

/-! ### Well formed worlds -/

theorem valid_initial (c : Config) (n : Rand) : (initial c n).Valid :=
  ⟨[], represents_new, by simp⟩

theorem Valid.resize {r : World} (h : r.Valid) (w' h' : Int) : (r.Resize w' h').Valid := h

theorem Valid.cull {r : World} (h : r.Valid) : ∃ r', r.cull = some r' ∧ r'.Valid ∧
    r'.w = r.w ∧ r'.h = r.h ∧ r'.noise = r.noise ∧ r'.render = r.render ∧ r'.age = r.age := by
  obtain ⟨es, hrep, hv⟩ := h
  obtain ⟨es', slugs', hc, hsub, _, _, hdir⟩ := cullFirst_valid r.w r.h es r.slugs hv
  have hce := cull_eq r es hrep
  simp only [hc] at hce
  obtain ⟨ents, he, hrep'⟩ := hce
  refine ⟨_, he, ⟨es', hrep', ?_⟩, rfl, rfl, rfl, rfl, rfl⟩
  intro e he'
  obtain ⟨s, hs, hd⟩ := hv e (hsub.subset he')
  obtain ⟨s', hs', hd'⟩ := hdir e s hs
  exact ⟨s', hs', hd' ▸ hd⟩

theorem Valid.spawn {r : World} (h : r.Valid) (hw : 0 < r.w) (hh : 0 < r.h) :
    ∃ r', r.spawn = some r' ∧ r'.Valid ∧ r'.w = r.w ∧ r'.h = r.h ∧ r'.render = r.render ∧
      r'.age = r.age := by
  obtain ⟨es, hrep, hv⟩ := h
  obtain ⟨c, n1, hc, hne, h0⟩ := spawn_eq r es hrep hw hh
  by_cases hc0 : c = 0
  · obtain ⟨i, j, d, n4, ents', _, _, _, _, hd, hrep', hsp⟩ := h0 hc0
    refine ⟨_, hsp, ⟨_, hrep', ?_⟩, rfl, rfl, rfl, rfl⟩
    intro e he
    rcases List.mem_append.1 he with he | he
    · obtain ⟨s, hs, hds⟩ := hv e he
      have hlt : e < r.slugs.length := (List.getElem?_eq_some_iff.1 hs).1
      exact ⟨s, by simp only [List.getElem?_append_left hlt]; exact hs, hds⟩
    · have : e = r.slugs.length := by simpa using he
      subst this
      exact ⟨⟨0, ⟨Float64.ofInt i, Float64.ofInt j⟩, d⟩, by simp, hd⟩
  · exact ⟨_, hne hc0, ⟨es, hrep, hv⟩, rfl, rfl, rfl, rfl⟩

/-- A well formed world with positive bounds: `Beat` returns, and the world stays well
formed. -/
theorem Valid.beat {r : World} (h : r.Valid) (hw : 0 < r.w) (hh : 0 < r.h) :
    ∃ r', r.Beat = some r' ∧ r'.Valid ∧ r'.w = r.w ∧ r'.h = r.h ∧ r'.render = r.render ∧
      r'.age = (r.age + 1) % 2 ^ 64 := by
  have h0 : World.Valid { r with age := (r.age + 1) % 2 ^ 64 } := h
  obtain ⟨r1, hc, hv1, hw1, hh1, _, hr1, ha1⟩ := h0.cull
  obtain ⟨r2, hs, hv2, hw2, hh2, hr2, ha2⟩ := hv1.spawn (by rw [hw1]; exact hw) (by rw [hh1]; exact hh)
  have hb : r.Beat = some r2 := by
    show (World.cull _).bind _ = _
    rw [hc]; exact hs
  refine ⟨r2, hb, hv2, by rw [hw2, hw1], by rw [hh2, hh1], by rw [hr2, hr1],
    by rw [ha2, ha1]⟩

end World

theorem Slug.staysBelow_spec (w h : Int) : ∀ (n : Nat) (s : Slug), s.staysBelow w h n = true →
    ∀ k, k < n → ∃ s1 s2, s.beats k = some s1 ∧ s1.Beat = some (s2, true) ∧
      s2.Position.x < w ∧ s2.Position.y < h ∧ s.beats (k + 1) = some s2
  | 0, _, _, k, hk => absurd hk (Nat.not_lt_zero k)
  | n + 1, s, hst, k, hk => by
    unfold Slug.staysBelow at hst
    cases hb : s.Beat with
    | none => simp [hb] at hst
    | some p =>
      obtain ⟨s', b⟩ := p
      cases b with
      | false => simp [hb] at hst
      | true =>
        simp only [hb, Bool.and_eq_true, decide_eq_true_eq] at hst
        cases k with
        | zero =>
          exact ⟨s, s', rfl, hb, hst.1.1, hst.1.2, by simp [Slug.beats, hb]⟩
        | succ k =>
          obtain ⟨s1, s2, h1, h2, h3, h4, h5⟩ :=
            Slug.staysBelow_spec w h n s' hst.2 k (by omega)
          refine ⟨s1, s2, ?_, h2, h3, h4, ?_⟩
          · simp [Slug.beats, hb, h1]
          · rw [Slug.beats]; simp [hb, h5]

theorem exampleSlug_staysBelow : exampleSlug.staysBelow 10 10 256 = true := by decide!

namespace World
open LinkedList

theorem run_append (r : World) : ∀ (cs ds : List Call),
    r.run (cs ++ ds) = (r.run cs).bind (fun r' => r'.run ds)
  | [], ds => rfl
  | c :: cs, ds => by
    simp only [List.cons_append, run]
    cases hc : r.call c with
    | none => rfl
    | some r1 => simp [run_append r1 cs ds]

theorem run_beats_succ (r : World) (n : Nat) :
    r.run (List.replicate (n + 1) Call.beat) =
      (r.run (List.replicate n Call.beat)).bind (fun r' => r'.Beat) := by
  rw [List.replicate_succ', run_append]
  congr 1
  funext r'
  simp only [run, call]
  cases r'.Beat <;> rfl

/-- One beat of a world whose first entity survives inside the bounds. -/
theorem Beat_front_kept (r : World) (e : Entity) (es : List Entity) (s s1 : Slug)
    (hrep : r.entities.Represents (e :: es)) (hs : r.slugs[e]? = some s)
    (hb : s.Beat = some (s1, true)) (hx : s1.Position.x < r.w) (hy : s1.Position.y < r.h)
    (hw : 0 < r.w) (hh : 0 < r.h)
    (hv : ∀ e' ∈ es, e' ≠ e ∧ ∃ s', r.slugs[e']? = some s' ∧ s'.movementDirection ≤ West) :
    ∃ r' es', r.Beat = some r' ∧ r'.w = r.w ∧ r'.h = r.h ∧
      r'.entities.Represents (e :: es') ∧ r'.slugs[e]? = some s1 ∧
      (∀ e' ∈ es', e' ≠ e ∧ ∃ s', r'.slugs[e']? = some s' ∧ s'.movementDirection ≤ West) := by
  have hlt : e < r.slugs.length := (List.getElem?_eq_some_iff.1 hs).1
  have hv' : ∀ e' ∈ es, ∃ t, (r.slugs.set e s1)[e']? = some t ∧ t.movementDirection ≤ West := by
    intro e' he'
    obtain ⟨hne, t, ht, hd⟩ := hv e' he'
    exact ⟨t, by rw [List.getElem?_set_ne (Ne.symm hne)]; exact ht, hd⟩
  obtain ⟨es1, slugs1, hc, hsub, hlen, hfr, hdir⟩ := cullFirst_valid r.w r.h es _ hv'
  have heno : e ∉ es := fun he => (hv e he).1 rfl
  have hs1 : slugs1[e]? = some s1 := by
    rw [hfr e heno]; simp [hlt]
  have hck := cullFirst_head_kept r.w r.h e es r.slugs s s1 hs hb hx hy
  rw [hc] at hck
  have hce := cull_eq { r with age := (r.age + 1) % 2 ^ 64 } (e :: es) hrep
  simp only [hck, Option.map_some'] at hce
  obtain ⟨ents, he, hrep1⟩ := hce
  have hv1 : ∀ e' ∈ es1, e' ≠ e ∧ ∃ s', slugs1[e']? = some s' ∧ s'.movementDirection ≤ West := by
    intro e' he'
    have hmem := hsub.subset he'
    obtain ⟨t, ht, hd⟩ := hv' e' hmem
    obtain ⟨t', ht', hd'⟩ := hdir e' t ht
    exact ⟨(hv e' hmem).1, t', ht', hd' ▸ hd⟩
  obtain ⟨c, n1, _, hne, h0⟩ := spawn_eq
    { r with age := (r.age + 1) % 2 ^ 64, entities := ents, slugs := slugs1 } (e :: es1) hrep1 hw hh
  have hBeat : r.Beat = World.spawn
      { r with age := (r.age + 1) % 2 ^ 64, entities := ents, slugs := slugs1 } := by
    show (World.cull _).bind _ = _
    rw [he]; rfl
  have hlt1 : e < slugs1.length := by rw [hlen]; simpa using hlt
  by_cases hc0 : c = 0
  · obtain ⟨i, j, d, n4, ents', _, _, _, _, hd, hrep', hsp⟩ := h0 hc0
    refine ⟨_, es1 ++ [slugs1.length], hBeat.trans hsp, rfl, rfl, by simpa using hrep', ?_, ?_⟩
    · show (slugs1 ++ _)[e]? = some s1
      rw [List.getElem?_append_left hlt1]; exact hs1
    · intro e' he'
      rcases List.mem_append.1 he' with he' | he'
      · obtain ⟨hne', t, ht, hdt⟩ := hv1 e' he'
        have hlt' : e' < slugs1.length := (List.getElem?_eq_some_iff.1 ht).1
        refine ⟨hne', t, ?_, hdt⟩
        show (slugs1 ++ _)[e']? = some t
        rw [List.getElem?_append_left hlt']; exact ht
      · have : e' = slugs1.length := by simpa using he'
        subst this
        refine ⟨Nat.ne_of_gt hlt1, ⟨0, ⟨Float64.ofInt i, Float64.ofInt j⟩, d⟩, ?_, hd⟩
        show (slugs1 ++ _)[slugs1.length]? = _
        simp
  · exact ⟨_, es1, hBeat.trans (hne hc0), rfl, rfl, hrep1, hs1, hv1⟩

/-- One beat of a world whose first entity expires. -/
theorem Beat_front_expired (r : World) (e : Entity) (es : List Entity) (s s1 : Slug)
    (hrep : r.entities.Represents (e :: es)) (hs : r.slugs[e]? = some s)
    (hb : s.Beat = some (s1, false)) (hw : 0 < r.w) (hh : 0 < r.h) (heno : e ∉ es) :
    ∃ r' es', r.Beat = some r' ∧ r'.entities.Represents es' ∧ e ∉ es' ∧
      r'.slugs[e]? = some s1 := by
  have hlt : e < r.slugs.length := (List.getElem?_eq_some_iff.1 hs).1
  have hck := cullFirst_head_expired r.w r.h e es r.slugs s s1 hs hb
  have hce := cull_eq { r with age := (r.age + 1) % 2 ^ 64 } (e :: es) hrep
  simp only [hck] at hce
  obtain ⟨ents, he, hrep1⟩ := hce
  obtain ⟨c, n1, _, hne, h0⟩ := spawn_eq
    { r with age := (r.age + 1) % 2 ^ 64, entities := ents, slugs := r.slugs.set e s1 } es hrep1
    hw hh
  have hBeat : r.Beat = World.spawn
      { r with age := (r.age + 1) % 2 ^ 64, entities := ents, slugs := r.slugs.set e s1 } := by
    show (World.cull _).bind _ = _
    rw [he]; rfl
  have hs1 : (r.slugs.set e s1)[e]? = some s1 := by simp [hlt]
  have hlt1 : e < (r.slugs.set e s1).length := by simpa using hlt
  by_cases hc0 : c = 0
  · obtain ⟨i, j, d, n4, ents', _, _, _, _, hd, hrep', hsp⟩ := h0 hc0
    refine ⟨_, es ++ [(r.slugs.set e s1).length], hBeat.trans hsp, hrep', ?_, ?_⟩
    · intro hmem
      rcases List.mem_append.1 hmem with h1 | h1
      · exact heno h1
      · have : e = (r.slugs.set e s1).length := by simpa using h1
        exact absurd this (Nat.ne_of_lt hlt1)
    · show (r.slugs.set e s1 ++ _)[e]? = some s1
      rw [List.getElem?_append_left hlt1]; exact hs1
  · exact ⟨_, es, hBeat.trans (hne hc0), hrep1, heno, hs1⟩

end World

namespace LinkedList
variable {T : Type}

theorem foldlM_pushBack_represents : ∀ (ys xs : List T) (r : LinkedList T), r.Represents xs →
    ∃ r', ys.foldlM (fun r v => r.PushBack v) r = some r' ∧ r'.Represents (xs ++ ys)
  | [], xs, r, h => ⟨r, rfl, by simpa using h⟩
  | y :: ys, xs, r, h => by
    obtain ⟨r1, h1, hrep1⟩ := h.pushBack y
    obtain ⟨r2, h2, hrep2⟩ := foldlM_pushBack_represents ys (xs ++ [y]) r1 hrep1
    exact ⟨r2, by simp [List.foldlM, h1, h2], by simpa using hrep2⟩

/-- The list built from `xs` by `PushBack` is well formed and holds `xs`. -/
theorem ofList_represents (xs : List T) : ∃ r, ofList xs = some r ∧ r.Represents xs := by
  simpa [ofList] using foldlM_pushBack_represents xs [] NewLinkedList represents_new

end LinkedList

namespace World
open LinkedList

theorem derefAll_some (slugs : List Slug) : ∀ (es : List Entity),
    (∀ e ∈ es, ∃ s, slugs[e]? = some s) → ∃ ss, derefAll slugs es = some ss
  | [], _ => ⟨[], rfl⟩
  | e :: es, h => by
    obtain ⟨s, hs⟩ := h e (List.mem_cons_self _ _)
    obtain ⟨ss, hss⟩ := derefAll_some slugs es (fun e' he' => h e' (List.mem_cons_of_mem _ he'))
    exact ⟨s :: ss, by simp [derefAll, hs, hss]⟩

theorem Valid.registry {r : World} (h : r.Valid) : ∃ ss, r.registry = some ss := by
  obtain ⟨es, hrep, hv⟩ := h
  rw [registry_eq r es hrep]
  exact derefAll_some _ _ (fun e he => by obtain ⟨s, hs, _⟩ := hv e he; exact ⟨s, hs⟩)

theorem Valid.of_spawn {r r' : World} (h : r.Valid) (hs : r.spawn = some r') : r'.Valid := by
  by_cases hw : 0 < r.w
  · by_cases hh : 0 < r.h
    · obtain ⟨r2, hs2, hv2, _⟩ := h.spawn hw hh
      rw [hs] at hs2; cases hs2
      exact hv2
    · obtain ⟨c, n1, hc, _, _, _⟩ := Intn_pos r.noise SlugSpawnChance (by decide)
      by_cases hc0 : c = 0
      · obtain ⟨i, n2, hi, _, _, _⟩ := Intn_pos n1 r.w hw
        have hj : n2.Intn r.h = none := by simp [Rand.Intn, not_lt.1 hh]
        simp [World.spawn, hc, hc0, hi, hj] at hs
      · have : r.spawn = some { r with noise := n1 } := by simp [World.spawn, hc, hc0]
        rw [hs] at this; cases this
        exact h
  · obtain ⟨c, n1, hc, _, _, _⟩ := Intn_pos r.noise SlugSpawnChance (by decide)
    by_cases hc0 : c = 0
    · have hi : n1.Intn r.w = none := by simp [Rand.Intn, not_lt.1 hw]
      simp [World.spawn, hc, hc0, hi] at hs
    · have : r.spawn = some { r with noise := n1 } := by simp [World.spawn, hc, hc0]
      rw [hs] at this; cases this
      exact h

/-- `Beat` keeps a world well formed whenever it returns. -/
theorem Valid.of_beat {r r' : World} (h : r.Valid) (hb : r.Beat = some r') : r'.Valid := by
  have h0 : World.Valid { r with age := (r.age + 1) % 2 ^ 64 } := h
  obtain ⟨r1, hc, hv1, _⟩ := h0.cull
  have : r.Beat = r1.spawn := by
    show (World.cull _).bind _ = _
    rw [hc]; rfl
  rw [this] at hb
  exact hv1.of_spawn hb

/-- Every world reached from a well formed one by `Resize` and `Beat` calls is well formed. -/
theorem Valid.of_run : ∀ (cs : List Call) {r r' : World}, r.Valid → r.run cs = some r' → r'.Valid
  | [], r, r', h, hr => by cases hr; exact h
  | c :: cs, r, r', h, hr => by
    simp only [run] at hr
    cases hc : r.call c with
    | none => simp [hc] at hr
    | some r1 =>
      simp only [hc, Option.some_bind] at hr
      have hv1 : r1.Valid := by
        cases c with
        | resize w h' => simp only [call, Option.some.injEq] at hc; subst hc; exact h.resize w h'
        | beat => exact h.of_beat hc
      exact Valid.of_run cs hv1 hr

theorem loneSlugWorld_represents : loneSlugWorld.entities.Represents [0] :=
  ⟨[(1, 0)], ⟨⟨⟨rfl, rfl⟩, rfl, ⟨rfl, rfl⟩⟩, by decide, rfl⟩, rfl⟩

end World

/-! ## Lemmas: the walk with a logging predicate, and directions -/

namespace LinkedList
variable {T : Type}

/-- The culling walk with a logging predicate, on the contents: when no element satisfies the
predicate, all are visited and kept. -/
theorem cullFirst_logged_none (p : T → Bool) : ∀ (xs log : List T),
    (∀ x ∈ xs, p x = false) → cullFirst (logged p) xs log = some (xs, log ++ xs)
  | [], log, _ => by simp [cullFirst]
  | x :: xs, log, h => by
    have hx : p x = false := h x (List.mem_cons_self _ _)
    have ih := cullFirst_logged_none p xs (log ++ [x]) (fun y hy => h y (List.mem_cons_of_mem _ hy))
    simp [cullFirst, logged, hx] at ih ⊢
    simp [logged, ih]

/-- The culling walk with a logging predicate, on the contents: the walk visits the elements up
to the first one that satisfies the predicate, drops that one and stops. -/
theorem cullFirst_logged_first (p : T → Bool) : ∀ (pre : List T) (x : T) (post log : List T),
    (∀ y ∈ pre, p y = false) → p x = true →
    cullFirst (logged p) (pre ++ x :: post) log = some (pre ++ post, log ++ pre ++ [x])
  | [], x, post, log, _, hx => by simp [cullFirst, logged, hx]
  | y :: pre, x, post, log, h, hx => by
    have hy : p y = false := h y (List.mem_cons_self _ _)
    have ih := cullFirst_logged_first p pre x post (log ++ [y])
      (fun z hz => h z (List.mem_cons_of_mem _ hz)) hx
    simp only [List.cons_append, cullFirst, logged, hy] at ih ⊢
    simp [ih]

end LinkedList

namespace World
open LinkedList

theorem derefAll_mem (slugs : List Slug) : ∀ (es : List Entity) (ss : List Slug),
    derefAll slugs es = some ss → ∀ s ∈ ss, ∃ e ∈ es, slugs[e]? = some s
  | [], ss, h, s, hs => by
    simp [derefAll] at h; subst h; simp at hs
  | e :: es, ss, h, s, hs => by
    simp only [derefAll] at h
    cases hse : slugs[e]? with
    | none => simp [hse] at h
    | some s0 =>
      cases hr : derefAll slugs es with
      | none => simp [hse, hr] at h
      | some ss0 =>
        simp only [hse, hr, Option.some.injEq] at h
        subst h
        rcases List.mem_cons.1 hs with rfl | hs
        · exact ⟨e, List.mem_cons_self _ _, hse⟩
        · obtain ⟨e', he', hs'⟩ := derefAll_mem slugs es ss0 hr s hs
          exact ⟨e', List.mem_cons_of_mem _ he', hs'⟩

/-- In a well formed world every Slug of the registry has a declared direction. -/
theorem Valid.directions {r : World} (h : r.Valid) :
    ∃ ss, r.registry = some ss ∧ ∀ s ∈ ss, s.movementDirection ≤ West := by
  obtain ⟨es, hrep, hv⟩ := h
  obtain ⟨ss, hss⟩ := Valid.registry ⟨es, hrep, hv⟩
  refine ⟨ss, hss, ?_⟩
  intro s hs
  rw [registry_eq r es hrep] at hss
  obtain ⟨e, he, hse⟩ := derefAll_mem r.slugs es ss hss s hs
  obtain ⟨s', hs', hd⟩ := hv e he
  rw [hse] at hs'; cases hs'
  exact hd

end World

/-! ## Lemmas: entities kept by the world step -/

namespace World
open LinkedList

/-- The culling traversal keeps, in order, every entity but at most one, and never drops an
entity whose beat returns true and leaves it below the bounds. -/
theorem cullFirst_keeps_healthy (w h : Int) : ∀ (es es' : List Entity) (slugs slugs' : List Slug),
    cullFirst (cullIterator w h) es slugs = some (es', slugs') →
    es'.Sublist es ∧
    ∀ e ∈ es, ∀ (s s1 : Slug), slugs[e]? = some s → s.Beat = some (s1, true) →
      s1.Position.x < w → s1.Position.y < h → e ∈ es'
  | [], es', slugs, slugs', hc => by
    simp only [cullFirst, Option.some.injEq, Prod.mk.injEq] at hc
    obtain ⟨rfl, _⟩ := hc
    exact ⟨List.Sublist.refl _, fun e he => absurd he (List.not_mem_nil e)⟩
  | x :: xs, es', slugs, slugs', hc => by
    cases hsx : slugs[x]? with
    | none =>
      rw [cullFirst, cullIterator_none_of_invalid w h x slugs hsx] at hc
      cases hc
    | some sx =>
      cases hbx : sx.Beat with
      | none =>
        have : cullIterator w h x slugs = none := by
          simp [cullIterator, Entity.Beat, hsx, hbx]
        rw [cullFirst, this] at hc
        cases hc
      | some p =>
        obtain ⟨sx1, b⟩ := p
        have hit := cullIterator_eq w h x slugs sx sx1 b hsx hbx
        generalize hflag : (!b || decide (sx1.Position.x ≥ w) || decide (sx1.Position.y ≥ h))
          = flag at hit
        cases flag with
        | true =>
          simp only [cullFirst, hit, Option.some.injEq, Prod.mk.injEq] at hc
          obtain ⟨rfl, _⟩ := hc
          refine ⟨List.sublist_cons_self _ _, ?_⟩
          intro e he s s1 hs hb hx hy
          rcases List.mem_cons.1 he with rfl | he
          · exfalso
            rw [hsx] at hs; cases hs
            rw [hbx] at hb; cases hb
            simp [not_le.2 hx, not_le.2 hy] at hflag
          · exact he
        | false =>
          simp only [cullFirst, hit] at hc
          cases hrec : cullFirst (cullIterator w h) xs (slugs.set x sx1) with
          | none => simp [hrec] at hc
          | some q =>
            obtain ⟨ys, slugs2⟩ := q
            simp only [hrec, Option.some.injEq, Prod.mk.injEq] at hc
            obtain ⟨rfl, _⟩ := hc
            obtain ⟨hsub, hkeep⟩ := cullFirst_keeps_healthy w h xs ys (slugs.set x sx1) slugs2 hrec
            refine ⟨hsub.cons₂ _, ?_⟩
            intro e he s s1 hs hb hx hy
            by_cases hex : e = x
            · subst hex; exact List.mem_cons_self _ _
            · rcases List.mem_cons.1 he with rfl | he
              · exact absurd rfl hex
              · refine List.mem_cons_of_mem _ (hkeep e he s s1 ?_ hb hx hy)
                rw [List.getElem?_set_ne (Ne.symm hex)]; exact hs

/-- What a returning `spawn` does to the registry: nothing, or one entity appended. -/
theorem spawn_some {r r' : World} {es : List Entity} (hrep : r.entities.Represents es)
    (hs : r.spawn = some r') :
    (r'.entities = r.entities ∧ r'.slugs = r.slugs) ∨
    (r'.entities.Represents (es ++ [r.slugs.length]) ∧ ∃ x, r'.slugs = r.slugs ++ [x]) := by
  obtain ⟨c, n1, hc, _, _, _⟩ := Intn_pos r.noise SlugSpawnChance (by decide)
  by_cases hc0 : c = 0
  · by_cases hw : 0 < r.w
    · by_cases hh : 0 < r.h
      · obtain ⟨c', n1', hc', _, h0⟩ := spawn_eq r es hrep hw hh
        rw [hc] at hc'; cases hc'
        obtain ⟨i, j, d, n4, ents, _, _, _, _, _, hrep', hsp⟩ := h0 hc0
        rw [hs] at hsp; cases hsp
        exact Or.inr ⟨hrep', _, rfl⟩
      · obtain ⟨i, n2, hi, _, _, _⟩ := Intn_pos n1 r.w hw
        have hj : n2.Intn r.h = none := by simp [Rand.Intn, not_lt.1 hh]
        simp [World.spawn, hc, hc0, hi, hj] at hs
    · have hi : n1.Intn r.w = none := by simp [Rand.Intn, not_lt.1 hw]
      simp [World.spawn, hc, hc0, hi] at hs
  · have : r.spawn = some { r with noise := n1 } := by simp [World.spawn, hc, hc0]
    rw [hs] at this; cases this
    exact Or.inl ⟨rfl, rfl⟩

end World

/-! ## Lemmas: the canvas of `View` -/

namespace World
open LinkedList

theorem isGrid_replicate (w h : Nat) (ch : Char) :
    IsGrid (List.replicate h (List.replicate w ch)) w h := by
  refine ⟨by simp, ?_⟩
  intro row hrow
  rw [(List.mem_replicate.1 hrow).2]; simp

theorem cellAt_replicate (w h : Nat) (ch : Char) (x y : Nat) (hx : x < w) (hy : y < h) :
    cellAt (List.replicate h (List.replicate w ch)) x y = some ch := by
  simp [cellAt, List.getElem?_replicate, hx, hy]

theorem isGrid_specGrid (w h : Nat) (ss : List Slug) : IsGrid (specGrid w h ss) w h := by
  refine ⟨by simp [specGrid], ?_⟩
  intro row hrow
  simp only [specGrid, List.mem_map] at hrow
  obtain ⟨y, _, rfl⟩ := hrow
  simp

theorem cellAt_specGrid (w h : Nat) (ss : List Slug) (x y : Nat) (hx : x < w) (hy : y < h) :
    cellAt (specGrid w h ss) x y =
      some (if ∃ s ∈ ss, s.Position = { x := (x : Int), y := (y : Int) }
        then SlugRender else RenderEmpty) := by
  simp [cellAt, specGrid, List.getElem?_map, List.getElem?_range, hx, hy]

theorem isGrid_ext {cv cv' : List (List Char)} {w h : Nat} (hc : IsGrid cv w h)
    (hc' : IsGrid cv' w h)
    (hcell : ∀ x y, x < w → y < h → cellAt cv x y = cellAt cv' x y) : cv = cv' := by
  apply List.ext_getElem (by rw [hc.1, hc'.1])
  intro y h1 h2
  have hyh : y < h := by rw [← hc.1]; exact h1
  have hr1 : (cv[y]).length = w := hc.2 _ (List.getElem_mem _)
  have hr2 : (cv'[y]).length = w := hc'.2 _ (List.getElem_mem _)
  apply List.ext_getElem (by rw [hr1, hr2])
  intro x hx1 hx2
  have := hcell x y (by rw [← hr1]; exact hx1) hyh
  simp only [cellAt, List.getElem?_eq_getElem h1, List.getElem?_eq_getElem h2, Option.some_bind,
    List.getElem?_eq_getElem hx1, List.getElem?_eq_getElem hx2, Option.some.injEq] at this
  exact this

theorem cellAt_set {cv : List (List Char)} {row : List Char} {px py : Nat} (ch : Char)
    (hrow : cv[py]? = some row) (hpx : px < row.length) (x y : Nat) :
    cellAt (cv.set py (row.set px ch)) x y =
      if x = px ∧ y = py then some ch else cellAt cv x y := by
  have hpy : py < cv.length := (List.getElem?_eq_some_iff.1 hrow).1
  unfold cellAt
  by_cases hy : y = py
  · subst hy
    by_cases hx : x = px
    · subst hx
      simp [hpy, hpx]
    · simp [hpy, hx, hrow, List.getElem?_set_ne (Ne.symm hx)]
  · simp [hy, List.getElem?_set_ne (Ne.symm hy)]

theorem isGrid_set {cv : List (List Char)} {row : List Char} {w h px py : Nat} (ch : Char)
    (hg : IsGrid cv w h) (hrow : cv[py]? = some row) :
    IsGrid (cv.set py (row.set px ch)) w h := by
  refine ⟨by simpa using hg.1, ?_⟩
  intro r hr
  rcases List.mem_or_eq_of_mem_set hr with h1 | h1
  · exact hg.2 r h1
  · subst h1
    obtain ⟨hlt, heq⟩ := List.getElem?_eq_some_iff.1 hrow
    have hmem : row ∈ cv := heq ▸ List.getElem_mem hlt
    simpa using hg.2 row hmem

/-- One call of the `View` closure on an entity whose discrete position is inside the grid: the
cell at that position becomes the render symbol, the other cells are unchanged. -/
theorem paint_spec (slugs : List Slug) (e : Entity) (s : Slug) (cv : List (List Char))
    (w h : Nat) (hs : slugs[e]? = some s) (hg : IsGrid cv w h)
    (hx0 : 0 ≤ s.Position.x) (hx1 : s.Position.x < w)
    (hy0 : 0 ≤ s.Position.y) (hy1 : s.Position.y < h) :
    ∃ cv', paint slugs e cv = some cv' ∧ IsGrid cv' w h ∧
      ∀ x y, cellAt cv' x y =
        if x = s.Position.x.toNat ∧ y = s.Position.y.toNat then some SlugRender
        else cellAt cv x y := by
  have hpy : s.Position.y.toNat < cv.length := by rw [hg.1]; omega
  have hrow : cv[s.Position.y.toNat]? = some (cv[s.Position.y.toNat]) :=
    List.getElem?_eq_getElem hpy
  have hlen : (cv[s.Position.y.toNat]).length = w := hg.2 _ (List.getElem_mem _)
  have hpx : s.Position.x.toNat < (cv[s.Position.y.toNat]).length := by rw [hlen]; omega
  refine ⟨cv.set s.Position.y.toNat ((cv[s.Position.y.toNat]).set s.Position.x.toNat SlugRender),
    ?_, isGrid_set SlugRender hg hrow, cellAt_set SlugRender hrow hpx⟩
  have hny : ¬ s.Position.y < 0 := not_lt.2 hy0
  have hnx : ¬ (s.Position.x < 0 ∨ ((cv[s.Position.y.toNat]).length : Int) ≤ s.Position.x) := by
    rw [hlen]; omega
  simp only [paint, Entity.Position, Entity.Render, hs, Option.bind_eq_bind, Option.some_bind,
    Option.pure_def, hny, if_false, hrow, hnx, Slug.Render]

theorem visitAll_paint (slugs : List Slug) (w h : Nat) : ∀ (es : List Entity) (ss : List Slug)
    (cv : List (List Char)), derefAll slugs es = some ss → IsGrid cv w h →
    (∀ s ∈ ss, 0 ≤ s.Position.x ∧ s.Position.x < w ∧ 0 ≤ s.Position.y ∧ s.Position.y < h) →
    ∃ cv', visitAll (paint slugs) es cv = some cv' ∧ IsGrid cv' w h ∧
      ∀ x y, cellAt cv' x y =
        if ∃ s ∈ ss, s.Position = { x := (x : Int), y := (y : Int) } then some SlugRender
        else cellAt cv x y
  | [], ss, cv, hd, hg, _ => by
    simp only [derefAll, Option.some.injEq] at hd
    subst hd
    exact ⟨cv, rfl, hg, fun x y => by simp⟩
  | e :: es, ss, cv, hd, hg, hin => by
    simp only [derefAll] at hd
    cases hse : slugs[e]? with
    | none => simp [hse] at hd
    | some s =>
      cases hr : derefAll slugs es with
      | none => simp [hse, hr] at hd
      | some ss0 =>
        simp only [hse, hr, Option.some.injEq] at hd
        subst hd
        obtain ⟨hx0, hx1, hy0, hy1⟩ := hin s (List.mem_cons_self _ _)
        obtain ⟨cv1, hp, hg1, hcell1⟩ := paint_spec slugs e s cv w h hse hg hx0 hx1 hy0 hy1
        obtain ⟨cv2, hv, hg2, hcell2⟩ := visitAll_paint slugs w h es ss0 cv1 hr hg1
          (fun t ht => hin t (List.mem_cons_of_mem _ ht))
        refine ⟨cv2, by simp [visitAll, hp, hv], hg2, ?_⟩
        intro x y
        rw [hcell2 x y, hcell1 x y]
        have hpos : (s.Position = { x := (x : Int), y := (y : Int) }) ↔
            (x = s.Position.x.toNat ∧ y = s.Position.y.toNat) := by
          constructor
          · intro heq
            rw [heq]; simp
          · rintro ⟨h1, h2⟩
            cases hsp : s.Position with
            | mk px py =>
              rw [hsp] at h1 h2 hx0 hy0
              simp only at h1 h2 hx0 hy0
              subst h1; subst h2
              simp [Int.toNat_of_nonneg hx0, Int.toNat_of_nonneg hy0]
        by_cases hex : ∃ t ∈ ss0, t.Position = { x := (x : Int), y := (y : Int) }
        · have : ∃ t ∈ s :: ss0, t.Position = { x := (x : Int), y := (y : Int) } := by
            obtain ⟨t, ht, hp⟩ := hex
            exact ⟨t, List.mem_cons_of_mem _ ht, hp⟩
          simp [hex, this]
        · by_cases hsx : s.Position = { x := (x : Int), y := (y : Int) }
          · have : ∃ t ∈ s :: ss0, t.Position = { x := (x : Int), y := (y : Int) } :=
              ⟨s, List.mem_cons_self _ _, hsx⟩
            rw [if_neg hex, if_pos (hpos.1 hsx), if_pos this]
          · have : ¬ ∃ t ∈ s :: ss0, t.Position = { x := (x : Int), y := (y : Int) } := by
              rintro ⟨t, ht, hp⟩
              rcases List.mem_cons.1 ht with rfl | ht
              · exact hsx hp
              · exact hex ⟨t, ht, hp⟩
            rw [if_neg hex, if_neg (fun hc => hsx (hpos.2 hc)), if_neg this]

/-! ### Serialisation -/

theorem foldl_snoc (row acc : List Char) :
    row.foldl (fun s cell => s ++ [cell]) acc = acc ++ row := by
  induction row generalizing acc with
  | nil => simp
  | cons a row ih => simp [ih]

theorem serialize_eq (cv : List (List Char)) (acc : List Char) :
    cv.foldl (fun s row => row.foldl (fun s cell => s ++ [cell]) s ++ [RenderNewline]) acc =
      acc ++ (cv.map (fun row => row ++ [RenderNewline])).flatten := by
  have hf : (fun (s : List Char) (row : List Char) =>
      row.foldl (fun s cell => s ++ [cell]) s ++ [RenderNewline]) =
      (fun s row => s ++ row ++ [RenderNewline]) := by
    funext s row; rw [foldl_snoc]
  rw [hf]
  induction cv generalizing acc with
  | nil => simp
  | cons row cv ih =>
    simp only [List.foldl_cons, List.map_cons, List.flatten_cons]
    rw [ih]; simp

theorem intercalate_snoc (sep : List Char) : ∀ (rows : List (List Char)) (last : List Char),
    List.intercalate sep (rows ++ [last]) = (rows.map (fun row => row ++ sep)).flatten ++ last
  | [], last => by simp [List.intercalate]
  | [a], last => by simp [List.intercalate, List.intersperse]
  | a :: b :: rows, last => by
    have ih := intercalate_snoc sep (b :: rows) last
    simp only [List.intercalate, List.cons_append, List.intersperse, List.flatten_cons,
      List.map_cons, List.append_assoc, List.append_eq] at ih ⊢
    rw [ih]

theorem trimNewline_serialize (cv : List (List Char)) :
    trimNewline ((cv.map (fun row => row ++ [RenderNewline])).flatten) =
      List.intercalate [RenderNewline] cv := by
  rcases List.eq_nil_or_concat cv with rfl | ⟨rows, last, rfl⟩
  · simp [trimNewline, List.intercalate]
  · rw [List.concat_eq_append, intercalate_snoc]
    simp only [List.map_append, List.map_cons, List.map_nil, List.flatten_append, List.flatten_cons,
      List.flatten_nil, List.append_nil]
    have : (rows.map (fun row => row ++ [RenderNewline])).flatten ++ (last ++ [RenderNewline]) =
        ((rows.map (fun row => row ++ [RenderNewline])).flatten ++ last) ++ [RenderNewline] := by
      simp
    rw [this]
    simp [trimNewline, RenderNewline]

end World

/-! ## Claims -/

section Claims

open LinkedList World

/-- C1 (refuted on the code): on the list A, B, C = 1, 2, 3 with a predicate that asks to remove
B only, `IterateRemove` calls the predicate on A and on B and never on C: the element after a
removed one is not visited, because `e.Next()` is read after `Remove(e)` has detached `e`. -/
theorem IterateRemove_skips_after_removal :
    ((ofList [1, 2, 3]).bind
      (fun r => r.IterateRemove (logged (fun v => v == 2)) [])).map (fun x => x.2)
        = some [1, 2] := by
  decide

/-- C2 (refuted on the code): on the list 1, 2, 3 with a predicate that asks to remove 1 and 2,
the contents after `IterateRemove` are 2, 3 and not 3: only the first marked element is
removed. -/
theorem IterateRemove_keeps_marked_element :
    ((ofList [1, 2, 3]).bind
      (fun r => r.IterateRemove (logged (fun v => v == 1 || v == 2)) [])).bind
        (fun x => x.1.toList) = some [2, 3] := by
  decide

/-- C3 (refuted on the code): from the world of `main`, after `Resize(10, 10)` and six beats of
which the first spawns a Slug at (5, 0) heading North, the bounds are still 10 by 10 and the
registry holds one Slug whose discrete position is (5, -1): the culling test
`p.x >= r.w || p.y >= r.h` has no lower bound. -/
theorem Beat_keeps_entity_above_top_row :
    (topRowWorld.run (List.replicate 6 Call.beat)).map (fun r => (r.w, r.h)) = some (10, 10) ∧
    ((topRowWorld.run (List.replicate 6 Call.beat)).bind registry).map
      (fun ss => ss.map Slug.Position) = some [⟨5, -1⟩] := by
  decide!

/-- C4 (refuted on the code): from the world of `main`, after `Resize(100, 10)` and two beats
that each spawn a Slug, the ages after beat 257 are 256 and 255; beat 258 removes the first Slug
(expired) and the age of the second is still 255: `Beat` was not called on the entity that comes
after the removed one. -/
theorem Beat_skips_entity_after_removed :
    ((twoSlugWorld.run (List.replicate 257 Call.beat)).bind registry).map
      (fun ss => ss.map Slug.age) = some [256, 255] ∧
    ((twoSlugWorld.run (List.replicate 258 Call.beat)).bind registry).map
      (fun ss => ss.map Slug.age) = some [255] := by
  decide!

/-- C5: spawn policy of `World.Beat` for positive bounds.  Let `r1` be the world after `r.age++`
and the culling traversal, and `culled` its registry.  `Beat` returns a world `r'`.  If the first
draw `Intn(32)` of the step is not 0, the registry of `r'` is `culled`: nothing is appended.  If
it is 0, the registry of `r'` is `culled` followed by exactly one new Slug with age 0, position
`(float64(i), float64(j))` with `0 ≤ i < w` and `0 ≤ j < h`, and a direction among North, East,
South, West; the new Slug is stored as created, so it was neither advanced nor culled in this
step. -/
theorem Beat_spawn_policy (r r1 : World) (es : List Entity) (culled : List Slug)
    (hw : 0 < r.w) (hh : 0 < r.h) (hrep : r.entities.Represents es)
    (hcull : World.cull { r with age := (r.age + 1) % 2 ^ 64 } = some r1)
    (hreg : r1.registry = some culled) :
    ∃ c n1 r', r.noise.Intn SlugSpawnChance = some (c, n1) ∧ r.Beat = some r' ∧
      (c ≠ 0 → r'.registry = some culled ∧ r'.entities = r1.entities ∧ r'.slugs = r1.slugs) ∧
      (c = 0 → ∃ i j d, 0 ≤ i ∧ i < r.w ∧ 0 ≤ j ∧ j < r.h ∧
        (d = North ∨ d = East ∨ d = South ∨ d = West) ∧
        r'.registry = some (culled ++
          [{ age := 0, position := { x := Float64.ofInt i, y := Float64.ofInt j },
             movementDirection := d }]) ∧
        r'.slugs = r1.slugs ++
          [{ age := 0, position := { x := Float64.ofInt i, y := Float64.ofInt j },
             movementDirection := d }] ∧
        ∃ es1, r1.entities.toList = some es1 ∧
          r'.entities.toList = some (es1 ++ [r1.slugs.length])) := by
  have hce := cull_eq { r with age := (r.age + 1) % 2 ^ 64 } es hrep
  cases hcf : cullFirst (cullIterator r.w r.h) es r.slugs with
  | none =>
    simp only [hcf] at hce
    rw [hce] at hcull; cases hcull
  | some p =>
    obtain ⟨es1, slugs1⟩ := p
    simp only [hcf] at hce
    obtain ⟨ents, he, hrep1⟩ := hce
    rw [he] at hcull
    cases hcull
    have hBeat : r.Beat = World.spawn
        { r with age := (r.age + 1) % 2 ^ 64, entities := ents, slugs := slugs1 } := by
      show (World.cull _).bind _ = _
      rw [he]; rfl
    obtain ⟨c, n1, hc, hne, h0⟩ := spawn_eq
      { r with age := (r.age + 1) % 2 ^ 64, entities := ents, slugs := slugs1 } es1 hrep1 hw hh
    by_cases hc0 : c = 0
    · obtain ⟨i, j, d, n4, ents', hi0, hi1, hj0, hj1, hd, hrep', hsp⟩ := h0 hc0
      refine ⟨c, n1, _, hc, hBeat.trans hsp, fun hx => absurd hc0 hx, fun _ => ?_⟩
      refine ⟨i, j, d, hi0, hi1, hj0, hj1, ?_, ?_, rfl, es1, hrep1.toList, hrep'.toList⟩
      · have h3 : d ≤ 3 := hd
        clear hsp hrep'
        interval_cases d <;> simp [North, East, South, West]
      · rw [registry_eq _ _ hrep']
        rw [registry_eq _ _ hrep1] at hreg
        exact derefAll_push _ _ _ _ hreg
    · refine ⟨c, n1, _, hc, hBeat.trans (hne hc0), fun _ => ⟨?_, rfl, rfl⟩, fun hx => absurd hx hc0⟩
      rw [registry_eq _ _ hrep1] at hreg
      rw [← hreg]
      exact registry_eq _ es1 hrep1


/-- Witness of C5 at the first beat of `topRowWorld`. -/
theorem Beat_spawn_policy_witness :
    (0 < topRowWorld.w ∧ 0 < topRowWorld.h ∧ topRowWorld.entities.Represents [] ∧
      World.cull { topRowWorld with age := (topRowWorld.age + 1) % 2 ^ 64 } =
        some topRowWorldCulled ∧
      topRowWorldCulled.registry = some []) ∧
    ∃ c n1 r', topRowWorld.noise.Intn SlugSpawnChance = some (c, n1) ∧
      topRowWorld.Beat = some r' ∧
      (c ≠ 0 → r'.registry = some [] ∧ r'.entities = topRowWorldCulled.entities ∧
        r'.slugs = topRowWorldCulled.slugs) ∧
      (c = 0 → ∃ i j d, 0 ≤ i ∧ i < topRowWorld.w ∧ 0 ≤ j ∧ j < topRowWorld.h ∧
        (d = North ∨ d = East ∨ d = South ∨ d = West) ∧
        r'.registry = some ([] ++
          [{ age := 0, position := { x := Float64.ofInt i, y := Float64.ofInt j },
             movementDirection := d }]) ∧
        r'.slugs = topRowWorldCulled.slugs ++
          [{ age := 0, position := { x := Float64.ofInt i, y := Float64.ofInt j },
             movementDirection := d }] ∧
        ∃ es1, topRowWorldCulled.entities.toList = some es1 ∧
          r'.entities.toList = some (es1 ++ [topRowWorldCulled.slugs.length])) :=
  ⟨⟨by decide, by decide, represents_new, rfl, rfl⟩,
    Beat_spawn_policy topRowWorld topRowWorldCulled [] [] (by decide) (by decide)
      represents_new rfl rfl⟩


/-- C6: for every Slug with age `a < 2^64 - 1`: whenever `Slug.Beat` returns, the age is `a + 1`
and the flag is true if and only if `a + 1 ≤ 256`; `Beat` does return when the direction is one
of the four declared constants (otherwise `Move` panics).  Hence for a fresh Slug with a declared
direction each of the first 256 calls returns true and the 257th returns false. -/
theorem Slug_Beat_age_threshold (s : Slug) (hage : s.age < 2 ^ 64 - 1) :
    (∀ s' b, s.Beat = some (s', b) →
      s'.age = s.age + 1 ∧ (b = true ↔ s.age + 1 ≤ SlugAgeThreshold)) ∧
    (s.movementDirection ≤ West →
      ∃ s', s.Beat = some (s', decide (s.age + 1 ≤ SlugAgeThreshold)) ∧ s'.age = s.age + 1) ∧
    (s.age = 0 → s.movementDirection ≤ West →
      (∀ n, n < 256 → ∃ s1 s2, s.beats n = some s1 ∧ s1.age = n ∧ s1.Beat = some (s2, true)) ∧
      (∃ s1 s2, s.beats 256 = some s1 ∧ s1.age = 256 ∧ s1.Beat = some (s2, false))) := by
  have part : ∀ t : Slug, t.age < 2 ^ 64 - 1 → ∀ t' b, t.Beat = some (t', b) →
      t'.age = t.age + 1 ∧ (b = true ↔ t.age + 1 ≤ SlugAgeThreshold) := by
    intro t ht t' b hb
    obtain ⟨h1, _, h3⟩ := Slug.Beat_some hb
    have hsmall : (t.age + 1) % 2 ^ 64 = t.age + 1 := Nat.mod_eq_of_lt (by omega)
    rw [hsmall] at h1 h3
    exact ⟨h1, h3⟩
  have key : ∀ t : Slug, t.age < 2 ^ 64 - 1 → t.movementDirection ≤ West →
      ∃ t', t.Beat = some (t', decide (t.age + 1 ≤ SlugAgeThreshold)) ∧ t'.age = t.age + 1 := by
    intro t ht hd
    obtain ⟨t', b, hb⟩ := Slug.Beat_valid t hd
    obtain ⟨h1, h3⟩ := part t ht t' b hb
    refine ⟨t', ?_, h1⟩
    rw [hb]
    congr 2
    by_cases hle : t.age + 1 ≤ SlugAgeThreshold
    · simp [hle, h3.2 hle]
    · have : b ≠ true := fun hbt => hle (h3.1 hbt)
      simp [hle, this]
  refine ⟨part s hage, key s hage, ?_⟩
  intro h0 hdir
  refine ⟨?_, ?_⟩
  · intro n hn
    obtain ⟨s1, hs1, ha1, hd1⟩ := Slug.beats_age n s hdir (by unfold SlugAgeThreshold; omega)
    obtain ⟨s2, hs2, _⟩ := key s1 (by omega) (hd1 ▸ hdir)
    refine ⟨s1, s2, hs1, by omega, ?_⟩
    rw [hs2]
    have : s1.age + 1 ≤ SlugAgeThreshold := by unfold SlugAgeThreshold; omega
    simp [this]
  · obtain ⟨s1, hs1, ha1, hd1⟩ := Slug.beats_age 256 s hdir (by unfold SlugAgeThreshold; omega)
    obtain ⟨s2, hs2, _⟩ := key s1 (by omega) (hd1 ▸ hdir)
    refine ⟨s1, s2, hs1, by omega, ?_⟩
    rw [hs2]
    have : ¬ s1.age + 1 ≤ SlugAgeThreshold := by unfold SlugAgeThreshold; omega
    simp [this]

/-- Witness of C6 at the Slug of the example scenario (age 0, heading North). -/
theorem Slug_Beat_age_threshold_witness :
    exampleSlug.age < 2 ^ 64 - 1 ∧ exampleSlug.movementDirection ≤ West ∧ exampleSlug.age = 0 ∧
    (∃ s', exampleSlug.Beat = some (s', decide (exampleSlug.age + 1 ≤ SlugAgeThreshold)) ∧
      s'.age = exampleSlug.age + 1) ∧
    (∀ n, n < 256 → ∃ s1 s2, exampleSlug.beats n = some s1 ∧ s1.age = n ∧
      s1.Beat = some (s2, true)) ∧
    (∃ s1 s2, exampleSlug.beats 256 = some s1 ∧ s1.age = 256 ∧ s1.Beat = some (s2, false)) :=
  ⟨by decide, by decide, rfl,
    (Slug_Beat_age_threshold exampleSlug (by decide)).2.1 (by decide),
    ((Slug_Beat_age_threshold exampleSlug (by decide)).2.2 rfl (by decide)).1,
    ((Slug_Beat_age_threshold exampleSlug (by decide)).2.2 rfl (by decide)).2⟩

/-- C7: movement of `Slug.Beat`.  Whenever `Beat` returns, the direction is unchanged; when it
returns false the position is unchanged; when it returns true the direction is one of the four
constants and the new position is the old one with `SlugSpeed` (the float64 0.12) subtracted
from `y` (North), added to `y` (South), added to `x` (East) or subtracted from `x` (West), the
other coordinate unchanged. -/
theorem Slug_Beat_movement (s s' : Slug) (b : Bool) (h : s.Beat = some (s', b)) :
    s'.movementDirection = s.movementDirection ∧
    (b = false → s'.position = s.position) ∧
    (b = true →
      (s.movementDirection = North →
        s'.position = { x := s.position.x, y := s.position.y.sub SlugSpeed }) ∧
      (s.movementDirection = South →
        s'.position = { x := s.position.x, y := s.position.y.add SlugSpeed }) ∧
      (s.movementDirection = East →
        s'.position = { x := s.position.x.add SlugSpeed, y := s.position.y }) ∧
      (s.movementDirection = West →
        s'.position = { x := s.position.x.sub SlugSpeed, y := s.position.y }) ∧
      (s.movementDirection = North ∨ s.movementDirection = South ∨
        s.movementDirection = East ∨ s.movementDirection = West)) := by
  unfold Slug.Beat at h
  simp only at h
  split_ifs at h with hc
  · cases h
    exact ⟨rfl, fun _ => rfl, fun hb => by simp at hb⟩
  · cases hm : s.position.Move s.movementDirection SlugSpeed with
    | none => simp [hm] at h
    | some q =>
      simp [hm] at h
      obtain ⟨rfl, rfl⟩ := h
      refine ⟨rfl, fun hb => by simp at hb, fun _ => ?_⟩
      generalize SlugSpeed = dist at hm ⊢
      unfold PreciseCoordinates.Move at hm
      simp only [North, East, South, West] at hm ⊢
      split_ifs at hm with h0 h1 h2 h3 <;> cases hm <;> simp_all

/-- Witness of C7 at the Slug of the example scenario. -/
theorem Slug_Beat_movement_witness :
    exampleSlug.Beat = some (exampleSlugMoved, true) ∧
    exampleSlugMoved.movementDirection = exampleSlug.movementDirection ∧
    exampleSlugMoved.position =
      { x := exampleSlug.position.x, y := exampleSlug.position.y.sub SlugSpeed } :=
  ⟨by decide!,
    (Slug_Beat_movement exampleSlug exampleSlugMoved true (by decide!)).1,
    ((Slug_Beat_movement exampleSlug exampleSlugMoved true (by decide!)).2.2 rfl).1 rfl⟩

/-- C8: in a world with width 10 and height 10 whose registry holds exactly one fresh Slug at
(5.0, 5.0) heading North (the entity `e`), whatever the generator draws: after each of the first
256 calls of `World.Beat` the entity is still the first of the registry and its age is the number
of calls; the 257th call returns too, takes the age to 257 and removes the entity. -/
theorem lone_slug_lives_256_beats (r : World) (e : Entity) (hw : r.w = 10) (hh : r.h = 10)
    (hent : r.entities.Represents [e]) (hs : r.slugs[e]? = some exampleSlug) :
    (∀ n, n ≤ 256 → ∃ r' es s, r.run (List.replicate n Call.beat) = some r' ∧
      r'.entities.toList = some (e :: es) ∧ r'.slugs[e]? = some s ∧ s.age = n) ∧
    (∃ r' es s, r.run (List.replicate 257 Call.beat) = some r' ∧
      r'.entities.toList = some es ∧ e ∉ es ∧ r'.slugs[e]? = some s ∧ s.age = 257) := by
  have hspec := Slug.staysBelow_spec 10 10 256 exampleSlug exampleSlug_staysBelow
  have inv : ∀ n, n ≤ 256 → ∃ r' es s, r.run (List.replicate n Call.beat) = some r' ∧
      r'.w = 10 ∧ r'.h = 10 ∧ r'.entities.Represents (e :: es) ∧ r'.slugs[e]? = some s ∧
      exampleSlug.beats n = some s ∧
      (∀ e' ∈ es, e' ≠ e ∧ ∃ s', r'.slugs[e']? = some s' ∧ s'.movementDirection ≤ West) := by
    intro n
    induction n with
    | zero =>
      intro _
      exact ⟨r, [], exampleSlug, rfl, hw, hh, hent, hs, rfl, by simp⟩
    | succ n ih =>
      intro hn
      obtain ⟨r1, es, s, hrun, hw1, hh1, hrep, hs1, hbeats, hv⟩ := ih (by omega)
      obtain ⟨t1, t2, ht1, ht2, hx, hy, ht3⟩ := hspec n (by omega)
      rw [hbeats] at ht1; cases ht1
      obtain ⟨r2, es2, hb, hw2, hh2, hrep2, hs2, hv2⟩ :=
        Beat_front_kept r1 e es s t2 hrep hs1 ht2 (by rw [hw1]; exact hx) (by rw [hh1]; exact hy)
          (by rw [hw1]; decide) (by rw [hh1]; decide) hv
      refine ⟨r2, es2, t2, ?_, by rw [hw2, hw1], by rw [hh2, hh1], hrep2, hs2, ht3, hv2⟩
      rw [run_beats_succ, hrun]; exact hb
  have hage : ∀ n, n ≤ 256 → ∀ s, exampleSlug.beats n = some s → s.age = n ∧
      s.movementDirection ≤ West := by
    intro n hn s hsn
    obtain ⟨s1, hs1, ha, hd⟩ := Slug.beats_age n exampleSlug (by decide)
      (by show 0 + n ≤ 256; omega)
    rw [hsn] at hs1; cases hs1
    refine ⟨by rw [ha]; show 0 + n = n; omega, ?_⟩
    rw [hd]; decide
  refine ⟨?_, ?_⟩
  · intro n hn
    obtain ⟨r', es, s, hrun, _, _, hrep, hs', hbeats, _⟩ := inv n hn
    exact ⟨r', es, s, hrun, hrep.toList, hs', (hage n hn s hbeats).1⟩
  · obtain ⟨r1, es, s, hrun, hw1, hh1, hrep, hs1, hbeats, hv⟩ := inv 256 (le_refl _)
    obtain ⟨ha, hd⟩ := hage 256 (le_refl _) s hbeats
    obtain ⟨s2, b, hb⟩ := Slug.Beat_valid s hd
    obtain ⟨ha2, _, hb2⟩ := Slug.Beat_some hb
    rw [ha] at ha2 hb2
    have hbf : b = false := by
      cases b with
      | false => rfl
      | true => exact absurd (hb2.1 rfl) (by decide)
    subst hbf
    obtain ⟨r2, es2, hB, hrep2, hno, hs2⟩ :=
      Beat_front_expired r1 e es s s2 hrep hs1 hb (by rw [hw1]; decide) (by rw [hh1]; decide)
        (fun he => (hv e he).1 rfl)
    refine ⟨r2, es2, s2, ?_, hrep2.toList, hno, hs2, by rw [ha2]; decide⟩
    rw [run_beats_succ, hrun]; exact hB


/-- Witness of C8 at `loneSlugWorld`. -/
theorem lone_slug_lives_256_beats_witness :
    (loneSlugWorld.w = 10 ∧ loneSlugWorld.h = 10 ∧ loneSlugWorld.entities.Represents [0] ∧
      loneSlugWorld.slugs[0]? = some exampleSlug) ∧
    ((∀ n, n ≤ 256 → ∃ r' es s, loneSlugWorld.run (List.replicate n Call.beat) = some r' ∧
      r'.entities.toList = some (0 :: es) ∧ r'.slugs[0]? = some s ∧ s.age = n) ∧
    (∃ r' es s, loneSlugWorld.run (List.replicate 257 Call.beat) = some r' ∧
      r'.entities.toList = some es ∧ 0 ∉ es ∧ r'.slugs[0]? = some s ∧ s.age = 257)) :=
  ⟨⟨rfl, rfl, loneSlugWorld_represents, rfl⟩,
    lone_slug_lives_256_beats loneSlugWorld 0 rfl rfl loneSlugWorld_represents rfl⟩


/-- C9 (as stated, refuted): after 5 calls of `Slug.Beat` on the example Slug the position is not
(5.0, 4.4), where 4.4 is the float64 nearest to the decimal 4.4, which is
`4953959590107546 * 2^(-50)`. -/
theorem five_beats_not_at_4_4 :
    ¬ ((Slug.beats 5 exampleSlug).map (fun s => s.position) =
      some { x := Float64.ofInt 5, y := Float64.ofMantExp 4953959590107546 (-50) }) := by
  decide!

/-- C9 (amended): after 5 calls of `Slug.Beat` on the example Slug the age is 5, the position is
(5.0, 4.3999999999999995), the float64 `4953959590107545 * 2^(-50)` just below 4.4, and
`Slug.Position` returns the discrete position (5, 4). -/
theorem five_beats_position :
    Slug.beats 5 exampleSlug =
      some ⟨5, ⟨.ofInt 5, .ofMantExp 4953959590107545 (-50)⟩, North⟩ ∧
    (Slug.beats 5 exampleSlug).map Slug.Position = some ⟨5, 4⟩ := by
  decide!

/-- C10 (refuted on the code): the world reached from the world of `main` by `Resize(10, 10)`
and six beats, of which the first spawns a Slug at (5, 0) heading North, is in Active state
(`render` is true) and `View` panics there (index -1 out of range) instead of returning a
grid. -/
theorem View_panics_above_top_row :
    (topRowWorld.run (List.replicate 6 Call.beat)).map (fun r => r.render) = some true ∧
    (topRowWorld.run (List.replicate 6 Call.beat)).bind View = none := by
  decide!

/-- C11: content of `World.View` in Active state.  For a world with `render` true, bounds that
are not negative, a well formed registry list, and every Slug of the registry at a discrete
position inside `[0, w) x [0, h)`: `View` returns the rows of `specGrid` joined by the newline
symbol, with no newline after the last row; `specGrid` has `h` rows of `w` symbols, and its
symbol at row `y`, column `x` is `'S'` when some Slug of the registry has the discrete position
`(x, y)` and `' '` otherwise. -/
theorem View_grid_content (r : World) (es : List Entity) (ss : List Slug)
    (hr : r.render = true) (hw : 0 ≤ r.w) (hh : 0 ≤ r.h)
    (hrep : r.entities.Represents es) (hreg : r.registry = some ss)
    (hin : ∀ s ∈ ss, 0 ≤ s.Position.x ∧ s.Position.x < r.w ∧
      0 ≤ s.Position.y ∧ s.Position.y < r.h) :
    r.View = some (String.mk
      (List.intercalate [RenderNewline] (specGrid r.w.toNat r.h.toNat ss))) ∧
    IsGrid (specGrid r.w.toNat r.h.toNat ss) r.w.toNat r.h.toNat ∧
    ∀ x y, x < r.w.toNat → y < r.h.toNat →
      cellAt (specGrid r.w.toNat r.h.toNat ss) x y =
        some (if ∃ s ∈ ss, s.Position = { x := (x : Int), y := (y : Int) }
          then SlugRender else RenderEmpty) := by
  refine ⟨?_, isGrid_specGrid _ _ _, fun x y hx hy => cellAt_specGrid _ _ _ x y hx hy⟩
  rw [registry_eq r es hrep] at hreg
  have hin' : ∀ s ∈ ss, 0 ≤ s.Position.x ∧ s.Position.x < (r.w.toNat : Int) ∧
      0 ≤ s.Position.y ∧ s.Position.y < (r.h.toNat : Int) := by
    intro s hs
    obtain ⟨h1, h2, h3, h4⟩ := hin s hs
    rw [Int.toNat_of_nonneg hw, Int.toNat_of_nonneg hh]
    exact ⟨h1, h2, h3, h4⟩
  obtain ⟨cv, hv, hg, hcell⟩ := visitAll_paint r.slugs r.w.toNat r.h.toNat es ss
    (List.replicate r.h.toNat (List.replicate r.w.toNat RenderEmpty)) hreg
    (isGrid_replicate _ _ _) hin'
  have hcv : cv = specGrid r.w.toNat r.h.toNat ss := by
    apply isGrid_ext hg (isGrid_specGrid _ _ _)
    intro x y hx hy
    rw [hcell x y, cellAt_specGrid _ _ _ x y hx hy, cellAt_replicate _ _ _ x y hx hy]
    split_ifs <;> rfl
  have hguard : ¬ (r.h < 0 ∨ (0 < r.h ∧ r.w < 0)) := by omega
  simp only [View, hr, Bool.not_true, Bool.false_eq_true, if_false, hguard,
    hrep.iterate, hv, Option.bind_eq_bind, Option.some_bind, Option.pure_def, serialize_eq,
    List.nil_append, trimNewline_serialize, hcv]

/-- Witness of C11 at `loneSlugWorld`. -/
theorem View_grid_content_witness :
    (loneSlugWorld.render = true ∧ 0 ≤ loneSlugWorld.w ∧ 0 ≤ loneSlugWorld.h ∧
      loneSlugWorld.entities.Represents [0] ∧ loneSlugWorld.registry = some [exampleSlug] ∧
      ∀ s ∈ [exampleSlug], 0 ≤ s.Position.x ∧ s.Position.x < loneSlugWorld.w ∧
        0 ≤ s.Position.y ∧ s.Position.y < loneSlugWorld.h) ∧
    (loneSlugWorld.View = some (String.mk (List.intercalate [RenderNewline]
      (specGrid loneSlugWorld.w.toNat loneSlugWorld.h.toNat [exampleSlug]))) ∧
    IsGrid (specGrid loneSlugWorld.w.toNat loneSlugWorld.h.toNat [exampleSlug])
      loneSlugWorld.w.toNat loneSlugWorld.h.toNat ∧
    ∀ x y, x < loneSlugWorld.w.toNat → y < loneSlugWorld.h.toNat →
      cellAt (specGrid loneSlugWorld.w.toNat loneSlugWorld.h.toNat [exampleSlug]) x y =
        some (if ∃ s ∈ [exampleSlug], s.Position = { x := (x : Int), y := (y : Int) }
          then SlugRender else RenderEmpty)) :=
  ⟨⟨rfl, by decide, by decide, loneSlugWorld_represents, by decide!, by decide!⟩,
    View_grid_content loneSlugWorld [0] [exampleSlug] rfl (by decide) (by decide)
      loneSlugWorld_represents (by decide!) (by decide!)⟩

/-- C12 (refuted on the code): on the world built by `main`, before any `Resize` (width and
height 0), with a generator whose first draw `Intn(32)` is 0, `World.Beat` panics: the spawn
calls `r.noise.Intn(r.w)` with the bound 0. -/
theorem Beat_panics_before_Resize :
    (initial ⟨0, 100⟩ (Rand.ofList [0] 1)).w = 0 ∧
    (initial ⟨0, 100⟩ (Rand.ofList [0] 1)).render = false ∧
    ((initial ⟨0, 100⟩ (Rand.ofList [0] 1)).Beat).isNone = true := by
  decide

/-- C13: `World.Beat` never removes a healthy entity.  When `Beat` returns on a world whose
registry list is well formed with contents `es`, the registry afterwards is `kept ++ new`, where
`kept` is a sublist of `es` (same relative order) and `new` is at most one spawned entity; every
entity of `es` whose `Slug.Beat` returns true and whose discrete position after advancing lies
in `[0, w) x [0, h)` is in `kept`. -/
theorem Beat_keeps_healthy_entities (r r' : World) (es : List Entity)
    (hrep : r.entities.Represents es) (hb : r.Beat = some r') :
    ∃ kept new, kept.Sublist es ∧ new.length ≤ 1 ∧ r'.entities.toList = some (kept ++ new) ∧
      ∀ e ∈ es, ∀ (s s1 : Slug), r.slugs[e]? = some s → s.Beat = some (s1, true) →
        0 ≤ s1.Position.x → s1.Position.x < r.w → 0 ≤ s1.Position.y → s1.Position.y < r.h →
        e ∈ kept := by
  have hce := cull_eq { r with age := (r.age + 1) % 2 ^ 64 } es hrep
  have hBeat : r.Beat = (World.cull { r with age := (r.age + 1) % 2 ^ 64 }).bind World.spawn := rfl
  cases hcf : cullFirst (cullIterator r.w r.h) es r.slugs with
  | none =>
    simp only [hcf] at hce
    rw [hBeat, hce] at hb
    cases hb
  | some p =>
    obtain ⟨es1, slugs1⟩ := p
    simp only [hcf] at hce
    obtain ⟨ents, he, hrep1⟩ := hce
    rw [hBeat, he] at hb
    obtain ⟨hsub, hkeep⟩ := cullFirst_keeps_healthy r.w r.h es es1 r.slugs slugs1 hcf
    have hsp : World.spawn
        { r with age := (r.age + 1) % 2 ^ 64, entities := ents, slugs := slugs1 } = some r' := hb
    rcases spawn_some hrep1 hsp with ⟨h1, _⟩ | ⟨h1, _⟩
    · refine ⟨es1, [], hsub, by simp, ?_, fun e he s s1 hs hb1 _ hx _ hy =>
        hkeep e he s s1 hs hb1 hx hy⟩
      rw [h1]; simpa using hrep1.toList
    · exact ⟨es1, [slugs1.length], hsub, by simp, h1.toList, fun e he s s1 hs hb1 _ hx _ hy =>
        hkeep e he s s1 hs hb1 hx hy⟩

/-- Witness of C13 at `loneSlugWorld`. -/
theorem Beat_keeps_healthy_entities_witness :
    loneSlugWorld.entities.Represents [0] ∧
    ∃ r', loneSlugWorld.Beat = some r' ∧
      ∃ kept new, kept.Sublist [0] ∧ new.length ≤ 1 ∧
        r'.entities.toList = some (kept ++ new) ∧
        ∀ e ∈ [0], ∀ (s s1 : Slug), loneSlugWorld.slugs[e]? = some s →
          s.Beat = some (s1, true) →
          0 ≤ s1.Position.x → s1.Position.x < loneSlugWorld.w →
          0 ≤ s1.Position.y → s1.Position.y < loneSlugWorld.h → e ∈ kept :=
  ⟨loneSlugWorld_represents,
    (Option.isSome_iff_exists.1 (by decide! : loneSlugWorld.Beat.isSome = true)).elim
      (fun r' h => ⟨r', h,
        Beat_keeps_healthy_entities loneSlugWorld r' [0] loneSlugWorld_represents h⟩)⟩


/-- C14: `World.Resize(w, h)` sets the bounds to `(w, h)` and `render` to true, and leaves the
age, the generator, the configuration, the registry list and the store of Slugs (so every
entity's age, position and direction, and the registry read through the pointers)
unchanged. -/
theorem Resize_frame (r : World) (w h : Int) :
    (r.Resize w h).w = w ∧ (r.Resize w h).h = h ∧ (r.Resize w h).render = true ∧
    (r.Resize w h).age = r.age ∧ (r.Resize w h).noise = r.noise ∧
    (r.Resize w h).config = r.config ∧
    (r.Resize w h).entities = r.entities ∧ (r.Resize w h).slugs = r.slugs ∧
    (r.Resize w h).registry = r.registry :=
  ⟨rfl, rfl, rfl, rfl, rfl, rfl, rfl, rfl, rfl⟩

/-- C15: on every world whose `render` flag is false (no `Resize` yet), whatever its registry
and bounds, `World.View` returns the placeholder string and does not panic. -/
theorem View_not_initialized (r : World) (h : r.render = false) :
    r.View = some "not initialized" := by
  simp [View, h]

/-- Witness of C15 at the world built by `main`. -/
theorem View_not_initialized_witness :
    (initial ⟨0, 100⟩ (Rand.ofList [] 1)).render = false ∧
    (initial ⟨0, 100⟩ (Rand.ofList [] 1)).View = some "not initialized" :=
  ⟨rfl, View_not_initialized (initial ⟨0, 100⟩ (Rand.ofList [] 1)) rfl⟩

/-- C16: registry append and traversal.  For a well formed list with contents `xs` and a value
`v`, `PushBack(v)` returns a list whose `Len` is `|xs| + 1`; on that list `Iterate` runs its
iterator on the values of `xs ++ [v]` in that order, each once (with the logging iterator it
returns `xs ++ [v]`).  `Iterate` returns only the state of its closure and has no write to the
list: after any `Iterate` the list still has that `Len` and those contents. -/
theorem PushBack_then_Iterate {T : Type} (r : LinkedList T) (xs : List T) (v : T)
    (h : r.Represents xs) :
    ∃ r', r.PushBack v = some r' ∧ r'.Len = (xs.length : Int) + 1 ∧
      r'.toList = some (xs ++ [v]) ∧
      (∀ (σ : Type) (f : T → σ → Option σ) (s : σ),
        r'.Iterate f s = visitAll f (xs ++ [v]) s) ∧
      (∀ (σ : Type) (f : T → σ → Option σ) (s s' : σ), r'.Iterate f s = some s' →
        r'.Len = (xs.length : Int) + 1 ∧ r'.toList = some (xs ++ [v])) := by
  obtain ⟨r', hp, hrep⟩ := h.pushBack v
  have hlen : r'.Len = (xs.length : Int) + 1 := by rw [hrep.len]; simp
  exact ⟨r', hp, hlen, hrep.toList, fun σ f s => hrep.iterate f s,
    fun _ _ _ _ _ => ⟨hlen, hrep.toList⟩⟩

/-- Witness of C16 at the list built from 1, 2 by `PushBack`, with 3 pushed: the new element
goes behind the two that are there, and `Iterate` meets 1, 2, 3 in that order. -/
theorem PushBack_then_Iterate_witness :
    ∃ r : LinkedList Nat, ofList [1, 2] = some r ∧ r.Represents [1, 2] ∧
      ∃ r', r.PushBack 3 = some r' ∧ r'.Len = (([1, 2] : List Nat).length : Int) + 1 ∧
        r'.toList = some ([1, 2] ++ [3]) ∧
        (∀ (σ : Type) (f : Nat → σ → Option σ) (s : σ),
          r'.Iterate f s = visitAll f ([1, 2] ++ [3]) s) ∧
        (∀ (σ : Type) (f : Nat → σ → Option σ) (s s' : σ), r'.Iterate f s = some s' →
          r'.Len = (([1, 2] : List Nat).length : Int) + 1 ∧
            r'.toList = some ([1, 2] ++ [3])) :=
  (ofList_represents [1, 2]).elim
    (fun r h => ⟨r, h.1, h.2, PushBack_then_Iterate r [1, 2] 3 h.2⟩)

/-- C17: for every message that is neither a window-size message nor a tick message,
`World.Update` returns the world it was called on, unchanged; the command is `tea.Quit` for the
key `ctrl+c` and nil for every other key and for unrecognized messages. -/
theorem Update_ignores_other_messages (r : World) (msg : Msg)
    (hw : ∀ w h, msg ≠ Msg.WindowSizeMsg w h) (ht : msg ≠ Msg.TickMsg) :
    ∃ cmd, r.Update msg = some (r, cmd) ∧
      (msg = Msg.KeyMsg "ctrl+c" → cmd = Cmd.Quit) ∧
      (msg ≠ Msg.KeyMsg "ctrl+c" → cmd = Cmd.nil) := by
  cases msg with
  | WindowSizeMsg w h => exact absurd rfl (hw w h)
  | TickMsg => exact absurd rfl ht
  | other => exact ⟨Cmd.nil, rfl, fun h => (by cases h), fun _ => rfl⟩
  | KeyMsg key =>
    by_cases hk : key = "ctrl+c"
    · subst hk
      exact ⟨Cmd.Quit, by simp [Update], fun _ => rfl, fun h => absurd rfl h⟩
    · refine ⟨Cmd.nil, by simp [Update, hk], fun h => ?_, fun _ => rfl⟩
      cases h; exact absurd rfl hk

/-- Witness of C17 at the key message `ctrl+c`. -/
theorem Update_ignores_other_messages_witness :
    ((∀ w h, Msg.KeyMsg "ctrl+c" ≠ Msg.WindowSizeMsg w h) ∧ Msg.KeyMsg "ctrl+c" ≠ Msg.TickMsg) ∧
    ∃ cmd, topRowWorld.Update (Msg.KeyMsg "ctrl+c") = some (topRowWorld, cmd) ∧
      (Msg.KeyMsg "ctrl+c" = Msg.KeyMsg "ctrl+c" → cmd = Cmd.Quit) ∧
      (Msg.KeyMsg "ctrl+c" ≠ Msg.KeyMsg "ctrl+c" → cmd = Cmd.nil) :=
  ⟨⟨fun _ _ h => (by cases h), fun h => (by cases h)⟩,
    Update_ignores_other_messages topRowWorld (Msg.KeyMsg "ctrl+c")
      (fun _ _ h => (by cases h)) (fun h => (by cases h))⟩

/-- C18: in every world reached from the world built by `main` by `Resize` and `Beat` calls,
every Slug of the registry has a direction among North, East, South, West, and the culling
traversal of the next `World.Beat` returns: none of its `Slug.Beat` calls reaches the panic of
`Move`. -/
theorem invalid_direction_unreachable (c : Config) (n : Rand) (cs : List Call) (r : World)
    (h : (initial c n).run cs = some r) :
    (∃ ss, r.registry = some ss ∧ ∀ s ∈ ss,
      s.movementDirection = North ∨ s.movementDirection = East ∨
        s.movementDirection = South ∨ s.movementDirection = West) ∧
    (∃ r1, World.cull { r with age := (r.age + 1) % 2 ^ 64 } = some r1) := by
  have hv : r.Valid := Valid.of_run cs (valid_initial c n) h
  refine ⟨?_, ?_⟩
  · obtain ⟨ss, hss, hd⟩ := hv.directions
    refine ⟨ss, hss, fun s hs => ?_⟩
    have h3 : s.movementDirection ≤ 3 := hd s hs
    simp only [North, East, South, West]
    generalize s.movementDirection = d at h3
    interval_cases d <;> simp
  · have h0 : World.Valid { r with age := (r.age + 1) % 2 ^ 64 } := hv
    obtain ⟨r1, hc, _⟩ := h0.cull
    exact ⟨r1, hc⟩

/-- Witness of C18 at the world reached by `Resize(10, 10)` and six beats, the first of which
spawns a Slug: the registry there holds one Slug, heading North, and it has been advanced by
five beats. -/
theorem invalid_direction_unreachable_witness :
    ∃ r, (initial ⟨0, 100⟩ (Rand.ofList [0, 5, 0, 0] 1)).run
        (Call.resize 10 10 :: List.replicate 6 Call.beat) = some r ∧
      r.registry.map (fun ss => ss.map (fun s => (s.age, s.movementDirection))) =
        some [(5, North)] ∧
      ((∃ ss, r.registry = some ss ∧ ∀ s ∈ ss,
        s.movementDirection = North ∨ s.movementDirection = East ∨
          s.movementDirection = South ∨ s.movementDirection = West) ∧
      (∃ r1, World.cull { r with age := (r.age + 1) % 2 ^ 64 } = some r1)) := by
  have hsome : ((initial ⟨0, 100⟩ (Rand.ofList [0, 5, 0, 0] 1)).run
      (Call.resize 10 10 :: List.replicate 6 Call.beat)).isSome = true := by decide!
  obtain ⟨r, hr⟩ := Option.isSome_iff_exists.1 hsome
  have hreg : (((initial ⟨0, 100⟩ (Rand.ofList [0, 5, 0, 0] 1)).run
      (Call.resize 10 10 :: List.replicate 6 Call.beat)).bind
        (fun r => r.registry.map (fun ss => ss.map (fun s => (s.age, s.movementDirection))))) =
      some [(5, North)] := by decide!
  rw [hr] at hreg
  exact ⟨r, hr, hreg, invalid_direction_unreachable ⟨0, 100⟩ (Rand.ofList [0, 5, 0, 0] 1)
    (Call.resize 10 10 :: List.replicate 6 Call.beat) r hr⟩

/-- C19: exact behaviour of `IterateRemove` on a well formed list with contents `xs` and a
predicate `p` (each call is logged).  If no element satisfies `p`, the calls are `xs` in order
and the contents and `Len` are unchanged.  Otherwise, with `x` the first element that satisfies
`p`, `pre` the elements before it and `post` those after it: the calls are exactly
`pre ++ [x]`, the contents afterwards are `pre ++ post` (only `x` is removed, `Len` drops by
one), so the elements of `post` are neither visited nor removed. -/
theorem IterateRemove_stops_at_first_removal {T : Type} (r : LinkedList T) (xs : List T)
    (p : T → Bool) (h : r.Represents xs) :
    ((∀ x ∈ xs, p x = false) →
      ∃ r', r.IterateRemove (logged p) [] = some (r', xs) ∧ r'.Represents xs ∧
        r'.toList = some xs ∧ r'.Len = r.Len) ∧
    (∀ pre x post, xs = pre ++ x :: post → (∀ y ∈ pre, p y = false) → p x = true →
      ∃ r', r.IterateRemove (logged p) [] = some (r', pre ++ [x]) ∧
        r'.Represents (pre ++ post) ∧ r'.toList = some (pre ++ post) ∧
        r'.Len = r.Len - 1) := by
  have key := h.iterateRemove (logged p) []
  refine ⟨fun hall => ?_, fun pre x post hxs hpre hx => ?_⟩
  · rw [cullFirst_logged_none p xs [] hall] at key
    obtain ⟨r', hr', hrep'⟩ := key
    exact ⟨r', by simpa using hr', hrep', hrep'.toList, by rw [hrep'.len, h.len]⟩
  · subst hxs
    rw [cullFirst_logged_first p pre x post [] hpre hx] at key
    obtain ⟨r', hr', hrep'⟩ := key
    refine ⟨r', by simpa using hr', hrep', hrep'.toList, ?_⟩
    rw [hrep'.len, h.len]
    simp only [List.length_append, List.length_cons]
    push_cast; ring

/-- Witness of C19 at the list built from 1, 2, 3 with the predicate that holds of 2: the calls
are 1, 2, the contents afterwards are 1, 3, and 3 is neither visited nor removed. -/
theorem IterateRemove_stops_at_first_removal_witness :
    ∃ r : LinkedList Nat, ofList [1, 2, 3] = some r ∧ r.Represents [1, 2, 3] ∧
      ∃ r', r.IterateRemove (logged (fun v => v == 2)) [] = some (r', [1] ++ [2]) ∧
        r'.Represents ([1] ++ [3]) ∧ r'.toList = some ([1] ++ [3]) ∧
        r'.Len = r.Len - 1 :=
  (ofList_represents [1, 2, 3]).elim
    (fun r h => ⟨r, h.1, h.2,
      (IterateRemove_stops_at_first_removal r [1, 2, 3] (fun v => v == 2) h.2).2
        [1] 2 [3] rfl (by decide) rfl⟩)

/-- C20: guarded totality of `World.Beat`.  In every world reached from the world built by
`main` by `Resize` and `Beat` calls, if the current width and height are both positive then
`World.Beat` returns, whatever the generator draws. -/
theorem Beat_total_on_positive_bounds (c : Config) (n : Rand) (cs : List Call) (r : World)
    (h : (initial c n).run cs = some r) (hw : 0 < r.w) (hh : 0 < r.h) :
    ∃ r', r.Beat = some r' := by
  have hv : r.Valid := Valid.of_run cs (valid_initial c n) h
  obtain ⟨r', hb, _⟩ := hv.beat hw hh
  exact ⟨r', hb⟩

/-- Witness of C20 at the world after one `Resize(10, 10)`. -/
theorem Beat_total_on_positive_bounds_witness :
    ((initial ⟨0, 100⟩ (Rand.ofList [0, 5, 0, 0] 1)).run [Call.resize 10 10] =
        some topRowWorld ∧ 0 < topRowWorld.w ∧ 0 < topRowWorld.h) ∧
    ∃ r', topRowWorld.Beat = some r' :=
  ⟨⟨rfl, by decide, by decide⟩,
    Beat_total_on_positive_bounds ⟨0, 100⟩ (Rand.ofList [0, 5, 0, 0] 1)
      [Call.resize 10 10] topRowWorld rfl (by decide) (by decide)⟩

end Claims

end Sims
